import Mathlib

/-!
SimpleVector over ArrayPtr: a shallow embedding.

Source: `src/simple-vector/array_ptr.h` and `src/simple-vector/simple_vector.h`.

Modelling decisions.

* A heap block is the list of its slots; `ArrayPtr` holds the block it owns and the
  empty list stands for `nullptr` (`ArrayPtr(size_t)` never allocates a block of
  zero slots).
* A pointer into a block is its offset from the start of the block, so an
  `Iterator` / `ConstIterator` is a natural number, `begin()` is offset `0` and
  `end()` is offset `size_`.  Forming the address `&array_[i]` reads nothing and
  cannot fault; only reading or writing through it can.
* `size_t` is `Nat`.  Every `size_t` on which the class does arithmetic
  (`2 * capacity_`, `size_ + 1`) is bounded by the slot count of a live block,
  far below the point where a 64-bit word wraps.
* Reading or writing a slot outside the block is undefined behaviour in the
  source; here it is the fault `outOfBounds`.  A failed `assert` is the fault
  `assertion`, and the exception thrown by `At` is the fault `outOfRange`.
  Reading through a reference into a block that has been released is the fault
  `dangling`.
* What the element type contributes is collected in the class `Elem`: the value
  `Type{}`, the state an object is left in after it has been moved from, and the
  content of the slots of a block just obtained from `new Type[n]` (unspecified
  for scalar types, default-constructed for class types).
* `std::copy` is `std::move` with a source that is left as it is.
* The reference parameter of `PushBack(const Type&)` and of both `Insert`
  overloads is an `Arg`: it is bound either to an object outside the block of the
  vector or to a slot of that block, and it is read at the point where the source
  reads it, after the block has been shifted, moved from, or released.
  `PushBack(Type&&)` takes its argument by value: it covers the calls whose
  argument is not a slot of the vector.
-/

namespace SimpleVec

/-- The ways an operation can fail to return normally. -/
inductive Fault where
  | assertion
  | outOfBounds
  | outOfRange
  | dangling
deriving DecidableEq

/-- What the embedding needs from the element type `Type`. -/
class Elem (α : Type) where
  /-- The value `Type{}`. -/
  dflt : α
  /-- The state left in an object after `std::move` has taken its value. -/
  moved : α → α
  /-- The content of slot `i` of a block just returned by `new Type[n]`. -/
  fresh : Nat → α

/-- Embeds `ArrayPtr<Type>`: the owned block (`raw_ptr_`), `[]` for `nullptr`. -/
structure ArrayPtr (α : Type) where
  raw_ptr_ : List α
deriving DecidableEq

namespace ArrayPtr

variable {α : Type}

/-- Embeds `ArrayPtr() = default`. -/
def null : ArrayPtr α := ⟨[]⟩

/-- Embeds `explicit ArrayPtr(size_t size)`. -/
def alloc [Elem α] (size : Nat) : ArrayPtr α :=
  if size ≠ 0 then ⟨(List.range size).map Elem.fresh⟩ else ⟨[]⟩

/-- Embeds `operator[]` used as an rvalue: `raw_ptr_[index]`. -/
def get (a : ArrayPtr α) (index : Nat) : Except Fault α :=
  match a.raw_ptr_[index]? with
  | some x => .ok x
  | none => .error .outOfBounds

/-- Embeds `operator[]` used as the target of an assignment: `raw_ptr_[index] = x`. -/
def set (a : ArrayPtr α) (index : Nat) (x : α) : Except Fault (ArrayPtr α) :=
  if index < a.raw_ptr_.length then .ok ⟨a.raw_ptr_.set index x⟩ else .error .outOfBounds

/-- Embeds `void swap(ArrayPtr& other)`: the pair is (this, other) after the call. -/
def swap (a other : ArrayPtr α) : ArrayPtr α × ArrayPtr α := (other, a)

/-- Embeds `ArrayPtr& operator=(ArrayPtr&& rhs)` for two distinct objects: the pair
is (this, rhs) after the call.  The block `this` owned before is not released. -/
def move_assign (_a rhs : ArrayPtr α) : ArrayPtr α × ArrayPtr α := (⟨rhs.raw_ptr_⟩, ⟨[]⟩)

end ArrayPtr

/-- What a reference parameter (`const Type&` or `Type&&`) is bound to when the call
is made: an object outside the block of the vector, or slot `index` of the block
the vector owns at that moment. -/
inductive Arg (α : Type) where
  | object (x : α)
  | slot (index : Nat)

namespace Arg

variable {α : Type}

/-- Reading the referenced object while the block it may lie in is `block`. -/
def read (value : Arg α) (block : ArrayPtr α) : Except Fault α :=
  match value with
  | object x => .ok x
  | slot index => block.get index

/-- Reading the referenced object after the block the vector owned at the call has
been released: a reference into that block dangles. -/
def read_released (value : Arg α) : Except Fault α :=
  match value with
  | object x => .ok x
  | slot _ => .error .dangling

/-- Taking the value out with `std::move(value)` while the block the reference may
lie in is `block`: the result is the value and the block, in which a referenced slot
is left in its moved-from state `mv x`. -/
def take (mv : α → α) (value : Arg α) (block : ArrayPtr α) :
    Except Fault (α × ArrayPtr α) :=
  match value with
  | object x => .ok (x, block)
  | slot index => do
    let x ← block.get index
    let block ← block.set index (mv x)
    pure (x, block)

end Arg

section Algorithms

variable {α : Type}

/-- The loop of `std::fill(first, first + n, value)` and of the hand-written
`for (it = first; it != last; ++it) *it = value`. -/
def fillLoop (a : ArrayPtr α) (value : α) (first : Nat) : Nat → Except Fault (ArrayPtr α)
  | 0 => .ok a
  | n + 1 => do
    let a ← a.set first value
    fillLoop a value (first + 1) n

/-- Fill the slots `[first, last)` of one block.  When `last` lies before `first`
the source loop never meets `last` and runs off the block: fault `outOfBounds`. -/
def fill (a : ArrayPtr α) (first last : Nat) (value : α) : Except Fault (ArrayPtr α) :=
  if first ≤ last then fillLoop a value first (last - first) else .error .outOfBounds

/-- The loop of `std::move(first, last, d_first)` from block `src` into another
block `dst`, front to back: `*d_first++ = std::move(*first++)`.  With
`mv = id` it is the loop of `std::copy`. -/
def moveLoop (mv : α → α) (src dst : ArrayPtr α) (first d_first : Nat) :
    Nat → Except Fault (ArrayPtr α × ArrayPtr α)
  | 0 => .ok (src, dst)
  | n + 1 => do
    let x ← src.get first
    let dst ← dst.set d_first x
    let src ← src.set first (mv x)
    moveLoop mv src dst (first + 1) (d_first + 1) n

/-- The loop of `std::move_backward(first, last, d_last)` from block `src` into
another block `dst`, back to front: `*(--d_last) = std::move(*(--last))`.  With
`mv = id` it is the loop of `std::copy_backward`. -/
def moveBackwardLoop (mv : α → α) (src dst : ArrayPtr α) (last d_last : Nat) :
    Nat → Except Fault (ArrayPtr α × ArrayPtr α)
  | 0 => .ok (src, dst)
  | n + 1 => do
    let x ← src.get (last - 1)
    let dst ← dst.set (d_last - 1) x
    let src ← src.set (last - 1) (mv x)
    moveBackwardLoop mv src dst (last - 1) (d_last - 1) n

/-- The loop of `std::move(first, last, d_first)` when source and destination
lie in the same block. -/
def moveLoopWithin (mv : α → α) (a : ArrayPtr α) (first d_first : Nat) :
    Nat → Except Fault (ArrayPtr α)
  | 0 => .ok a
  | n + 1 => do
    let x ← a.get first
    let a ← a.set first (mv x)
    let a ← a.set d_first x
    moveLoopWithin mv a (first + 1) (d_first + 1) n

/-- The loop of `std::move_backward(first, last, d_last)` when source and
destination lie in the same block. -/
def moveBackwardLoopWithin (mv : α → α) (a : ArrayPtr α) (last d_last : Nat) :
    Nat → Except Fault (ArrayPtr α)
  | 0 => .ok a
  | n + 1 => do
    let x ← a.get (last - 1)
    let a ← a.set (last - 1) (mv x)
    let a ← a.set (d_last - 1) x
    moveBackwardLoopWithin mv a (last - 1) (d_last - 1) n

/-- Embeds `std::move(first, last, d_first)` between two blocks.  A range whose
`last` lies before `first` makes the loop run off the block: fault `outOfBounds`
(the same holds for the three functions below). -/
def std_move (mv : α → α) (src dst : ArrayPtr α) (first last d_first : Nat) :
    Except Fault (ArrayPtr α × ArrayPtr α) :=
  if first ≤ last then moveLoop mv src dst first d_first (last - first)
  else .error .outOfBounds

/-- Embeds `std::move_backward(first, last, d_last)` between two blocks. -/
def std_move_backward (mv : α → α) (src dst : ArrayPtr α) (first last d_last : Nat) :
    Except Fault (ArrayPtr α × ArrayPtr α) :=
  if first ≤ last then moveBackwardLoop mv src dst last d_last (last - first)
  else .error .outOfBounds

/-- Embeds `std::move(first, last, d_first)` inside one block. -/
def std_move_within (mv : α → α) (a : ArrayPtr α) (first last d_first : Nat) :
    Except Fault (ArrayPtr α) :=
  if first ≤ last then moveLoopWithin mv a first d_first (last - first)
  else .error .outOfBounds

/-- Embeds `std::move_backward(first, last, d_last)` inside one block. -/
def std_move_backward_within (mv : α → α) (a : ArrayPtr α) (first last d_last : Nat) :
    Except Fault (ArrayPtr α) :=
  if first ≤ last then moveBackwardLoopWithin mv a last d_last (last - first)
  else .error .outOfBounds

/-- The loop of `std::equal(first1, last1, first2)` over `n = last1 - first1`
positions: `false` at the first position where `*first1 == *first2` fails. -/
def equalLoop [BEq α] (a b : ArrayPtr α) (first1 first2 : Nat) : Nat → Except Fault Bool
  | 0 => .ok true
  | n + 1 => do
    let x ← a.get first1
    let y ← b.get first2
    if !(x == y) then pure false
    else equalLoop a b (first1 + 1) (first2 + 1) n

/-- Embeds `std::equal(first1, last1, first2)`, the first range in block `a` and the
second in block `b`. -/
def std_equal [BEq α] (a b : ArrayPtr α) (first1 last1 first2 : Nat) : Except Fault Bool :=
  if first1 ≤ last1 then equalLoop a b first1 first2 (last1 - first1)
  else .error .outOfBounds

/-- The loop of `std::lexicographical_compare(first1, last1, first2, last2)` with
`n1 = last1 - first1` and `n2 = last2 - first2` positions left: it runs while both
ranges have a position left, returns `true` when `*first1 < *first2`, `false` when
`*first2 < *first1`, and after the loop `(first1 == last1) && (first2 != last2)`. -/
def lexLoop [LT α] [DecidableRel (LT.lt : α → α → Prop)] (a b : ArrayPtr α)
    (first1 first2 : Nat) : Nat → Nat → Except Fault Bool
  | 0, n2 => .ok (n2 != 0)
  | _ + 1, 0 => .ok false
  | n1 + 1, n2 + 1 => do
    let x ← a.get first1
    let y ← b.get first2
    if x < y then pure true
    else if y < x then pure false
    else lexLoop a b (first1 + 1) (first2 + 1) n1 n2

/-- Embeds `std::lexicographical_compare(first1, last1, first2, last2)`, the first
range in block `a` and the second in block `b`. -/
def std_lexicographical_compare [LT α] [DecidableRel (LT.lt : α → α → Prop)]
    (a b : ArrayPtr α) (first1 last1 first2 last2 : Nat) : Except Fault Bool :=
  if first1 ≤ last1 ∧ first2 ≤ last2 then
    lexLoop a b first1 first2 (last1 - first1) (last2 - first2)
  else .error .outOfBounds

end Algorithms

/-- Embeds `class ReserveProxyObj`: the requested capacity. -/
structure ReserveProxyObj where
  capacity_ : Nat

/-- Embeds `size_t ReserveProxyObj::GetCapacity()`. -/
def ReserveProxyObj.GetCapacity (obj : ReserveProxyObj) : Nat := obj.capacity_

/-- Embeds the free function `ReserveProxyObj Reserve(size_t capacity_to_reserve)`. -/
def Reserve (capacity_to_reserve : Nat) : ReserveProxyObj := ⟨capacity_to_reserve⟩

/-- Embeds `SimpleVector<Type>`: the three data members. -/
structure SimpleVector (α : Type) where
  array_ : ArrayPtr α
  size_ : Nat
  capacity_ : Nat
deriving DecidableEq

namespace SimpleVector

variable {α : Type}

/-- Embeds `SimpleVector() noexcept = default`. -/
def empty : SimpleVector α := ⟨ArrayPtr.null, 0, 0⟩

/-- Embeds `SimpleVector(size_t size, const Type& value)`. -/
def ofSizeValue [Elem α] (size : Nat) (value : α) : Except Fault (SimpleVector α) := do
  let array_ ← fill (ArrayPtr.alloc size) 0 (0 + size) value
  pure ⟨array_, size, size⟩

/-- Embeds `explicit SimpleVector(size_t size)`. -/
def ofSize [Elem α] (size : Nat) : Except Fault (SimpleVector α) :=
  ofSizeValue size Elem.dflt

/-- Embeds `void swap(SimpleVector& other)`: the pair is (this, other) after the call. -/
def swap (v other : SimpleVector α) : SimpleVector α × SimpleVector α :=
  let (a, b) := ArrayPtr.swap v.array_ other.array_
  (⟨a, other.size_, other.capacity_⟩, ⟨b, v.size_, v.capacity_⟩)

/-- Embeds `size_t GetSize() const`. -/
def GetSize (v : SimpleVector α) : Nat := v.size_

/-- Embeds `size_t GetCapacity() const`. -/
def GetCapacity (v : SimpleVector α) : Nat := v.capacity_

/-- Embeds `bool IsEmpty() const`. -/
def IsEmpty (v : SimpleVector α) : Bool := v.size_ == 0

/-- Embeds `void Reserve(size_t capacity_to_reserve)`. -/
def Reserve [Elem α] (v : SimpleVector α) (capacity_to_reserve : Nat) :
    Except Fault (SimpleVector α) :=
  if capacity_to_reserve > v.capacity_ then do
    let tmp_items ← ofSize capacity_to_reserve
    let (_, dst) ← std_move id v.array_ tmp_items.array_ 0 v.size_ 0
    let tmp_items : SimpleVector α := ⟨dst, v.size_, tmp_items.capacity_⟩
    pure (swap v tmp_items).1
  else pure v

/-- Embeds `Type& operator[](size_t index)`, read. -/
def index (v : SimpleVector α) (index : Nat) : Except Fault α :=
  if index ≤ v.capacity_ then v.array_.get index else .error .assertion

/-- Embeds `Type& At(size_t index)`, read. -/
def At (v : SimpleVector α) (index : Nat) : Except Fault α :=
  if index ≥ v.size_ then .error .outOfRange else v.array_.get index

/-- Embeds `void Clear()`. -/
def Clear (v : SimpleVector α) : SimpleVector α := { v with size_ := 0 }

/-- Embeds `void Resize(size_t new_size)`. -/
def Resize [Elem α] (v : SimpleVector α) (new_size : Nat) : Except Fault (SimpleVector α) :=
  if new_size = v.size_ then pure v
  else do
    let v ← if new_size < v.size_ then do
        let array_ ← fill v.array_ new_size v.size_ Elem.dflt
        pure { v with array_ := array_ }
      else pure v
    let v ← if new_size > v.capacity_ then do
        let new_capacity := max new_size (2 * v.capacity_)
        let arr_ptr : ArrayPtr α := ArrayPtr.alloc new_capacity
        let (old, arr_ptr) ← std_move Elem.moved v.array_ arr_ptr 0 v.size_ 0
        let arr_ptr ← fill arr_ptr v.size_ new_size Elem.dflt
        let (array_, _) := ArrayPtr.swap old arr_ptr
        pure { v with array_ := array_, capacity_ := new_capacity }
      else pure v
    pure { v with size_ := new_size }

/-- Embeds `void PushBack(const Type& item)`.  `Reserve` hands the old block to its
temporary, which releases it on return, whenever it allocates; `item` is read by
the assignment that follows. -/
def PushBack_copy [Elem α] (v : SimpleVector α) (item : Arg α) :
    Except Fault (SimpleVector α) := do
  let (v, released) ← if v.size_ = v.capacity_ then do
      let capacity_to_reserve := if v.capacity_ > 0 then v.capacity_ * 2 else 1
      let reserved ← Reserve v capacity_to_reserve
      pure (reserved, decide (capacity_to_reserve > v.capacity_))
    else pure (v, false)
  let x ← if released then item.read_released else item.read v.array_
  let array_ ← v.array_.set v.size_ x
  pure { v with array_ := array_ }

/-- Embeds `void PushBack(Type&& item)`. -/
def PushBack [Elem α] (v : SimpleVector α) (item : α) : Except Fault (SimpleVector α) := do
  let v ← if v.size_ < v.capacity_ then do
      let array_ ← v.array_.set v.size_ item
      pure { v with array_ := array_ }
    else do
      let new_capacity := max 1 (2 * v.capacity_)
      let arr_ptr : ArrayPtr α := ArrayPtr.alloc new_capacity
      let (old, arr_ptr) ← std_move Elem.moved v.array_ arr_ptr 0 v.size_ 0
      let arr_ptr ← arr_ptr.set v.size_ item
      let (array_, _) := ArrayPtr.swap old arr_ptr
      pure { v with array_ := array_, capacity_ := new_capacity }
  pure { v with size_ := v.size_ + 1 }

/-- Embeds `Iterator Insert(ConstIterator pos, const Type& value)`; the result is the
vector after the call and the returned iterator.  `value` is read by the assignment
to the slot at `pos`, after the elements have been shifted or copied. -/
def Insert_copy [Elem α] (v : SimpleVector α) (pos : Nat) (value : Arg α) :
    Except Fault (SimpleVector α × Nat) :=
  if ¬ (pos ≥ 0 ∧ pos ≤ v.size_) then .error .assertion
  else do
    let pos_element := pos - 0
    let v ← if v.size_ < v.capacity_ then do
        let array_ ← std_move_backward_within id v.array_ pos v.size_ (v.size_ + 1)
        let x ← value.read array_
        let array_ ← array_.set pos_element x
        pure { v with array_ := array_ }
      else do
        let new_capacity := max 1 (2 * v.capacity_)
        let arr_ptr : ArrayPtr α := ArrayPtr.alloc new_capacity
        let (old, arr_ptr) ← std_move id v.array_ arr_ptr 0 pos_element 0
        let (old, arr_ptr) ← std_move_backward id old arr_ptr pos v.size_ (v.size_ + 1)
        let x ← value.read old
        let arr_ptr ← arr_ptr.set pos_element x
        let (array_, _) := ArrayPtr.swap old arr_ptr
        pure { v with array_ := array_, capacity_ := new_capacity }
    pure ({ v with size_ := v.size_ + 1 }, pos_element)

/-- Embeds `Iterator Insert(ConstIterator pos, Type&& value)`; the result is the vector
after the call and the returned iterator.  `value` is moved from by the assignment
to the slot at `pos`, after the elements have been shifted or moved; when `value`
is that very slot, the slot keeps the value. -/
def Insert [Elem α] (v : SimpleVector α) (pos : Nat) (value : Arg α) :
    Except Fault (SimpleVector α × Nat) :=
  if ¬ (pos ≥ 0 ∧ pos ≤ v.size_) then .error .assertion
  else do
    let no_const_pos := pos
    let pos_element := no_const_pos - 0
    let v ← if v.size_ < v.capacity_ then do
        let array_ ← std_move_backward_within Elem.moved v.array_ no_const_pos v.size_ (v.size_ + 1)
        let (x, array_) ← value.take Elem.moved array_
        let array_ ← array_.set pos_element x
        pure { v with array_ := array_ }
      else do
        let new_capacity := max 1 (2 * v.capacity_)
        let arr_ptr : ArrayPtr α := ArrayPtr.alloc new_capacity
        let (old, arr_ptr) ← std_move Elem.moved v.array_ arr_ptr 0 pos_element 0
        let (old, arr_ptr) ←
          std_move_backward Elem.moved old arr_ptr no_const_pos v.size_ (v.size_ + 1)
        let (x, old) ← value.take Elem.moved old
        let arr_ptr ← arr_ptr.set pos_element x
        let (array_, _) := ArrayPtr.swap old arr_ptr
        pure { v with array_ := array_, capacity_ := new_capacity }
    pure ({ v with size_ := v.size_ + 1 }, pos_element)

/-- Embeds `void PopBack()`. -/
def PopBack (v : SimpleVector α) : Except Fault (SimpleVector α) :=
  if ¬ (!v.IsEmpty) then .error .assertion
  else pure { v with size_ := v.size_ - 1 }

/-- Embeds `Iterator Erase(ConstIterator pos)`; the result is the vector after the call
and the returned iterator. -/
def Erase [Elem α] (v : SimpleVector α) (pos : Nat) : Except Fault (SimpleVector α × Nat) :=
  if ¬ (pos ≥ 0 ∧ pos < v.size_) then .error .assertion
  else do
    let no_const_pos := pos
    let pos_element := no_const_pos - 0
    let no_const_pos := no_const_pos + 1
    let array_ ← std_move_within Elem.moved v.array_ no_const_pos v.size_ pos_element
    pure ({ v with array_ := array_, size_ := v.size_ - 1 }, pos_element)

/-- Embeds `SimpleVector(ReserveProxyObj obj)`. -/
def ofReserve [Elem α] (obj : ReserveProxyObj) : Except Fault (SimpleVector α) := do
  let vec : SimpleVector α := empty
  let vec ← vec.Reserve obj.GetCapacity
  pure (swap empty vec).1

/-- Embeds `SimpleVector(std::initializer_list<Type> other)`; the array behind the
list is the block `other`. -/
def ofInitList [Elem α] (other : List α) : Except Fault (SimpleVector α) := do
  let array_ : ArrayPtr α := ArrayPtr.alloc other.length
  let (_, array_) ← std_move id ⟨other⟩ array_ 0 other.length 0
  pure ⟨array_, other.length, other.length⟩

/-- Embeds `SimpleVector(const SimpleVector& other)`: the pair is (the new vector,
other) after the call. -/
def ofCopy [Elem α] (other : SimpleVector α) :
    Except Fault (SimpleVector α × SimpleVector α) := do
  let array_ : ArrayPtr α := ArrayPtr.alloc other.GetSize
  let (src, array_) ← std_move id other.array_ array_ 0 other.size_ 0
  pure (⟨array_, other.size_, other.capacity_⟩, { other with array_ := src })

/-- Embeds `SimpleVector(SimpleVector&& other)`: the pair is (the new vector, other)
after the call. -/
def ofMove (other : SimpleVector α) : SimpleVector α × SimpleVector α :=
  let (array_, other_array_) := ArrayPtr.move_assign ArrayPtr.null other.array_
  (⟨array_, other.size_, other.capacity_⟩, ⟨other_array_, 0, 0⟩)

/-- Embeds `SimpleVector& operator=(const SimpleVector& rhs)`: the pair is
(this, rhs) after the call; `this_is_rhs` is the outcome of `this == &rhs`. -/
def assign_copy [Elem α] (v rhs : SimpleVector α) (this_is_rhs : Bool) :
    Except Fault (SimpleVector α × SimpleVector α) :=
  if ! this_is_rhs then
    if rhs.IsEmpty then pure (v.Clear, rhs)
    else do
      let arr_ptr ← ofSize rhs.size_
      let (src, dst) ← std_move id rhs.array_ arr_ptr.array_ 0 rhs.size_ 0
      let arr_ptr : SimpleVector α := ⟨dst, arr_ptr.size_, rhs.capacity_⟩
      pure ((swap v arr_ptr).1, { rhs with array_ := src })
  else pure (v, rhs)

/-- Embeds `SimpleVector& operator=(SimpleVector&& rhs)`: the pair is (this, rhs)
after the call; `this_is_rhs` is the outcome of `this == &rhs`.  The body is the
one of the copy assignment. -/
def assign_move [Elem α] (v rhs : SimpleVector α) (this_is_rhs : Bool) :
    Except Fault (SimpleVector α × SimpleVector α) :=
  if ! this_is_rhs then
    if rhs.IsEmpty then pure (v.Clear, rhs)
    else do
      let arr_ptr ← ofSize rhs.size_
      let (src, dst) ← std_move id rhs.array_ arr_ptr.array_ 0 rhs.size_ 0
      let arr_ptr : SimpleVector α := ⟨dst, arr_ptr.size_, rhs.capacity_⟩
      pure ((swap v arr_ptr).1, { rhs with array_ := src })
  else pure (v, rhs)

/-- Embeds `bool operator==(const SimpleVector& lhs, const SimpleVector& rhs)`. -/
def operator_eq [BEq α] (lhs rhs : SimpleVector α) : Except Fault Bool :=
  if lhs.GetSize != rhs.GetSize then pure false
  else std_equal lhs.array_ rhs.array_ 0 lhs.size_ 0

/-- Embeds `bool operator!=(const SimpleVector& lhs, const SimpleVector& rhs)`. -/
def operator_ne [BEq α] (lhs rhs : SimpleVector α) : Except Fault Bool := do
  let r ← operator_eq lhs rhs
  pure (!r)

/-- Embeds `bool operator<(const SimpleVector& lhs, const SimpleVector& rhs)`. -/
def operator_lt [LT α] [DecidableRel (LT.lt : α → α → Prop)] (lhs rhs : SimpleVector α) :
    Except Fault Bool :=
  std_lexicographical_compare lhs.array_ rhs.array_ 0 lhs.size_ 0 rhs.size_

/-- Embeds `bool operator<=(const SimpleVector& lhs, const SimpleVector& rhs)`. -/
def operator_le [LT α] [DecidableRel (LT.lt : α → α → Prop)] (lhs rhs : SimpleVector α) :
    Except Fault Bool := do
  let r ← operator_lt rhs lhs
  pure (!r)

/-- Embeds `bool operator>(const SimpleVector& lhs, const SimpleVector& rhs)`. -/
def operator_gt [LT α] [DecidableRel (LT.lt : α → α → Prop)] (lhs rhs : SimpleVector α) :
    Except Fault Bool :=
  operator_lt rhs lhs

/-- Embeds `bool operator>=(const SimpleVector& lhs, const SimpleVector& rhs)`. -/
def operator_ge [LT α] [DecidableRel (LT.lt : α → α → Prop)] (lhs rhs : SimpleVector α) :
    Except Fault Bool := do
  let r ← operator_gt rhs lhs
  pure (!r)

/-- A run of calls `PushBack(std::move(x))`, one for each `x` of `items`, first to
last. -/
def pushAll [Elem α] : SimpleVector α → List α → Except Fault (SimpleVector α)
  | v, [] => .ok v
  | v, x :: items => do
    let v ← v.PushBack x
    pushAll v items

/-- The live range `[begin(), end())` read off the block, front to back. -/
def toList (v : SimpleVector α) : List α := v.array_.raw_ptr_.take v.size_

/-- The data-model invariant: `size_ ≤ capacity_` and the block has exactly
`capacity_` slots. -/
def WF (v : SimpleVector α) : Prop :=
  v.size_ ≤ v.capacity_ ∧ v.array_.raw_ptr_.length = v.capacity_

/-- The invariant `0 ≤ size ≤ capacity` of the data model, on what `GetSize()` and
`GetCapacity()` return. -/
def SizeInv (v : SimpleVector α) : Prop := 0 ≤ v.GetSize ∧ v.GetSize ≤ v.GetCapacity

/-- The live range `[begin(), end())` lies inside the block.  It follows from `WF`
and is what the operations that read a vector need of it. -/
def Live (v : SimpleVector α) : Prop := v.size_ ≤ v.array_.raw_ptr_.length

end SimpleVector

/-- An element type of scalar kind, on the natural numbers: `Type{}` is `0`, a
moved-from object keeps its value, and slot `i` of a fresh block holds the
arbitrary number `1000 + i`. -/
instance natElem : Elem Nat := ⟨0, id, fun i => 1000 + i⟩

/-- The vector reached from the empty one by `PushBack(1)`, `PushBack(2)`,
`PushBack(3)`: live elements `[1, 2, 3]` in a block of four slots. -/
def v123 : SimpleVector Nat := ⟨⟨[1, 2, 3, 1003]⟩, 3, 4⟩

/-- The vector reached from the empty one by `PushBack(1)`, `PushBack(2)`:
live elements `[1, 2]` in a block of two slots. -/
def v12 : SimpleVector Nat := ⟨⟨[1, 2]⟩, 2, 2⟩

/-- The vector reached from the empty one by `PushBack(1)`, `PushBack(2)`,
`PushBack(4)`: live elements `[1, 2, 4]` in a block of four slots. -/
def v124 : SimpleVector Nat := ⟨⟨[1, 2, 4, 1003]⟩, 3, 4⟩

section LoopLemmas

variable {α : Type}

theorem fillLoop_ok (value : α) (n : Nat) : ∀ (a : ArrayPtr α) (first : Nat),
    first + n ≤ a.raw_ptr_.length →
    ∃ a', fillLoop a value first n = .ok a' ∧ a'.raw_ptr_.length = a.raw_ptr_.length ∧
      ∀ j, a'.raw_ptr_[j]? =
        if first ≤ j ∧ j < first + n then some value else a.raw_ptr_[j]? := by
  induction n with
  | zero =>
    intro a first _
    exact ⟨a, rfl, rfl, fun j => by rw [if_neg]; omega⟩
  | succ n ih =>
    intro a first h
    have h1 : first < a.raw_ptr_.length := by omega
    obtain ⟨a', e, hl, hj⟩ := ih ⟨a.raw_ptr_.set first value⟩ (first + 1) (by simp; omega)
    refine ⟨a', ?_, ?_, ?_⟩
    · simp [fillLoop, ArrayPtr.set, h1, bind, Except.bind, e]
    · simpa using hl
    · intro j
      rw [hj j]
      simp only [List.getElem?_set]
      split_ifs <;> first | rfl | omega

theorem get_of_lt (a : ArrayPtr α) (i : Nat) (h : i < a.raw_ptr_.length) :
    ∃ x, a.raw_ptr_[i]? = some x ∧ a.get i = .ok x :=
  ⟨a.raw_ptr_[i], by simp [h], by simp [ArrayPtr.get, h]⟩

theorem moveLoop_ok (mv : α → α) (n : Nat) : ∀ (src dst : ArrayPtr α) (first d_first : Nat),
    first + n ≤ src.raw_ptr_.length → d_first + n ≤ dst.raw_ptr_.length →
    ∃ src' dst', moveLoop mv src dst first d_first n = .ok (src', dst') ∧
      src'.raw_ptr_.length = src.raw_ptr_.length ∧
      dst'.raw_ptr_.length = dst.raw_ptr_.length ∧
      (∀ j, src'.raw_ptr_[j]? =
        if first ≤ j ∧ j < first + n then (src.raw_ptr_[j]?).map mv else src.raw_ptr_[j]?) ∧
      (∀ j, dst'.raw_ptr_[j]? =
        if d_first ≤ j ∧ j < d_first + n then src.raw_ptr_[first + (j - d_first)]?
        else dst.raw_ptr_[j]?) := by
  induction n with
  | zero =>
    intro src dst first d_first _ _
    exact ⟨src, dst, rfl, rfl, rfl, fun j => by rw [if_neg]; omega,
      fun j => by rw [if_neg]; omega⟩
  | succ n ih =>
    intro src dst first d_first hs hd
    have h1 : first < src.raw_ptr_.length := by omega
    have h2 : d_first < dst.raw_ptr_.length := by omega
    obtain ⟨x, hx, gx⟩ := get_of_lt src first h1
    obtain ⟨src', dst', e, hls, hld, hjs, hjd⟩ :=
      ih ⟨src.raw_ptr_.set first (mv x)⟩ ⟨dst.raw_ptr_.set d_first x⟩ (first + 1) (d_first + 1)
        (by simp; omega) (by simp; omega)
    refine ⟨src', dst', ?_, ?_, ?_, ?_, ?_⟩
    · simp [moveLoop, ArrayPtr.set, h1, h2, gx, bind, Except.bind, e]
    · simpa using hls
    · simpa using hld
    · intro j
      rw [hjs j]
      simp only [List.getElem?_set]
      by_cases hj : first = j
      · subst hj
        simp [hx, h1]
      · simp only [hj, if_false]
        split_ifs <;> first | rfl | omega
    · intro j
      rw [hjd j]
      simp only [List.getElem?_set]
      by_cases hj : d_first = j
      · subst hj
        simp [hx, h2]
      · simp only [hj, if_false]
        have e1 : first + 1 + (j - (d_first + 1)) ≠ first := by omega
        split_ifs <;> first | rfl | omega | (congr 1; omega)

theorem moveBackwardLoop_ok (mv : α → α) (n : Nat) :
    ∀ (src dst : ArrayPtr α) (last d_last : Nat),
    n ≤ last → last ≤ src.raw_ptr_.length → n ≤ d_last → d_last ≤ dst.raw_ptr_.length →
    ∃ src' dst', moveBackwardLoop mv src dst last d_last n = .ok (src', dst') ∧
      src'.raw_ptr_.length = src.raw_ptr_.length ∧
      dst'.raw_ptr_.length = dst.raw_ptr_.length ∧
      (∀ j, src'.raw_ptr_[j]? =
        if last - n ≤ j ∧ j < last then (src.raw_ptr_[j]?).map mv else src.raw_ptr_[j]?) ∧
      (∀ j, dst'.raw_ptr_[j]? =
        if d_last - n ≤ j ∧ j < d_last then src.raw_ptr_[last - (d_last - j)]?
        else dst.raw_ptr_[j]?) := by
  induction n with
  | zero =>
    intro src dst last d_last _ _ _ _
    exact ⟨src, dst, rfl, rfl, rfl, fun j => by rw [if_neg]; omega,
      fun j => by rw [if_neg]; omega⟩
  | succ n ih =>
    intro src dst last d_last hn hs hdn hd
    have h1 : last - 1 < src.raw_ptr_.length := by omega
    have h2 : d_last - 1 < dst.raw_ptr_.length := by omega
    obtain ⟨x, hx, gx⟩ := get_of_lt src (last - 1) h1
    obtain ⟨src', dst', e, hls, hld, hjs, hjd⟩ :=
      ih ⟨src.raw_ptr_.set (last - 1) (mv x)⟩ ⟨dst.raw_ptr_.set (d_last - 1) x⟩
        (last - 1) (d_last - 1) (by omega) (by simp; omega) (by omega) (by simp; omega)
    refine ⟨src', dst', ?_, ?_, ?_, ?_, ?_⟩
    · simp [moveBackwardLoop, ArrayPtr.set, h1, h2, gx, bind, Except.bind, e]
    · simpa using hls
    · simpa using hld
    · intro j
      rw [hjs j]
      simp only [List.getElem?_set]
      by_cases hj : last - 1 = j
      · subst hj
        have c1 : ¬ (last - 1 - n ≤ last - 1 ∧ last - 1 < last - 1) := by omega
        have c2 : last - (n + 1) ≤ last - 1 ∧ last - 1 < last := by omega
        simp only [c1, c2, hx, h1, if_true, if_false, and_self, and_true, true_and, and_false, false_and,
              lt_self_iff_false, Option.map_some']
      · simp only [hj, if_false]
        split_ifs <;> first | rfl | omega
    · intro j
      rw [hjd j]
      simp only [List.getElem?_set]
      by_cases hj : d_last - 1 = j
      · subst hj
        have e2 : last - (d_last - (d_last - 1)) = last - 1 := by omega
        have c1 : ¬ (d_last - 1 - n ≤ d_last - 1 ∧ d_last - 1 < d_last - 1) := by omega
        have c2 : d_last - (n + 1) ≤ d_last - 1 ∧ d_last - 1 < d_last := by omega
        simp only [c1, c2, hx, h2, e2, if_true, if_false, and_self, and_true, true_and, and_false, false_and,
              lt_self_iff_false]
      · simp only [hj, if_false]
        have e1 : last - 1 - (d_last - 1 - j) ≠ last - 1 ∨
            ¬ (d_last - 1 - n ≤ j ∧ j < d_last - 1) := by omega
        split_ifs <;> first | rfl | omega | (congr 1; omega)

theorem moveLoopWithin_ok (mv : α → α) (n : Nat) : ∀ (a : ArrayPtr α) (d : Nat),
    d + 1 + n ≤ a.raw_ptr_.length →
    ∃ a', moveLoopWithin mv a (d + 1) d n = .ok a' ∧
      a'.raw_ptr_.length = a.raw_ptr_.length ∧
      (∀ j, a'.raw_ptr_[j]? =
        if d ≤ j ∧ j < d + n then a.raw_ptr_[j + 1]?
        else if j = d + n ∧ 0 < n then (a.raw_ptr_[j]?).map mv else a.raw_ptr_[j]?) := by
  induction n with
  | zero =>
    intro a d _
    exact ⟨a, rfl, rfl, fun j => by rw [if_neg, if_neg] <;> omega⟩
  | succ n ih =>
    intro a d h
    have h1 : d + 1 < a.raw_ptr_.length := by omega
    obtain ⟨x, hx, gx⟩ := get_of_lt a (d + 1) h1
    obtain ⟨a', e, hl, hj⟩ :=
      ih ⟨(a.raw_ptr_.set (d + 1) (mv x)).set d x⟩ (d + 1) (by simp; omega)
    refine ⟨a', ?_, ?_, ?_⟩
    · have h3 : d < a.raw_ptr_.length := by omega
      simp [moveLoopWithin, ArrayPtr.set, h1, h3, gx, bind, Except.bind, e]
    · simpa using hl
    · intro j
      rw [hj j]
      simp only [List.getElem?_set, List.length_set]
      by_cases hjd : d = j
      · subst hjd
        have h3 : d < a.raw_ptr_.length := by omega
        have c1 : ¬ (d + 1 ≤ d ∧ d < d + 1 + n) := by omega
        have c2 : ¬ (d = d + 1 + n ∧ 0 < n) := by omega
        have c3 : d ≤ d ∧ d < d + (n + 1) := by omega
        simp only [c1, c2, c3, hx, h3, if_true, if_false, and_self, and_true, true_and, and_false, false_and,
              lt_self_iff_false]
      · by_cases hjd1 : d + 1 = j
        · subst hjd1
          have c0 : d ≠ d + 1 := by omega
          cases n with
          | zero =>
            have c1 : ¬ (d + 1 ≤ d + 1 ∧ d + 1 < d + 1 + 0) := by omega
            have c2 : ¬ (d + 1 = d + 1 + 0 ∧ 0 < 0) := by omega
            have c3 : ¬ (d ≤ d + 1 ∧ d + 1 < d + (0 + 1)) := by omega
            have c4 : d + 1 = d + (0 + 1) ∧ 0 < 0 + 1 := by omega
            simp only [c0, c1, c2, c3, c4, hx, h1, if_true, if_false, and_self, and_true, true_and, and_false, false_and,
              lt_self_iff_false, Option.map_some']
          | succ m =>
            have c1 : d + 1 ≤ d + 1 ∧ d + 1 < d + 1 + (m + 1) := by omega
            have c3 : d ≤ d + 1 ∧ d + 1 < d + (m + 1 + 1) := by omega
            have c5 : d ≠ d + 1 + 1 ∧ d + 1 ≠ d + 1 + 1 := by omega
            simp only [c1, c3, c5, if_true, if_false, and_self, and_true, true_and, and_false, false_and,
              lt_self_iff_false]
        · simp only [hjd, hjd1, if_false]
          split_ifs <;> first | rfl | omega

theorem moveBackwardLoopWithin_ok (mv : α → α) (n : Nat) : ∀ (a : ArrayPtr α) (last : Nat),
    n ≤ last → last + 1 ≤ a.raw_ptr_.length →
    ∃ a', moveBackwardLoopWithin mv a last (last + 1) n = .ok a' ∧
      a'.raw_ptr_.length = a.raw_ptr_.length ∧
      (∀ j, a'.raw_ptr_[j]? =
        if last - n < j ∧ j ≤ last then a.raw_ptr_[j - 1]?
        else if j = last - n ∧ 0 < n then (a.raw_ptr_[j]?).map mv else a.raw_ptr_[j]?) := by
  induction n with
  | zero =>
    intro a last _ _
    exact ⟨a, rfl, rfl, fun j => by rw [if_neg, if_neg] <;> omega⟩
  | succ n ih =>
    intro a last hn h
    have h1 : last - 1 < a.raw_ptr_.length := by omega
    have h3 : last < a.raw_ptr_.length := by omega
    obtain ⟨x, hx, gx⟩ := get_of_lt a (last - 1) h1
    have hlast : last - 1 + 1 = last := by omega
    obtain ⟨a', e, hl, hj⟩ :=
      ih ⟨(a.raw_ptr_.set (last - 1) (mv x)).set last x⟩ (last - 1) (by omega)
        (by simp; omega)
    rw [hlast] at e
    refine ⟨a', ?_, ?_, ?_⟩
    · simp [moveBackwardLoopWithin, ArrayPtr.set, h1, h3, gx, bind, Except.bind, e]
    · simpa using hl
    · intro j
      rw [hj j]
      simp only [List.getElem?_set, List.length_set]
      by_cases hjl : last = j
      · subst hjl
        have c1 : ¬ (last - 1 - n < last ∧ last ≤ last - 1) := by omega
        have c2 : ¬ (last = last - 1 - n ∧ 0 < n) := by omega
        have c3 : last - (n + 1) < last ∧ last ≤ last := by omega
        simp only [c1, c2, c3, hx, h3, if_true, if_false, and_self, and_true, true_and, and_false, false_and,
              lt_self_iff_false]
      · by_cases hjl1 : last - 1 = j
        · subst hjl1
          have c0 : last ≠ last - 1 := by omega
          cases n with
          | zero =>
            have c1 : ¬ (last - 1 - 0 < last - 1 ∧ last - 1 ≤ last - 1) := by omega
            have c2 : ¬ (last - 1 = last - 1 - 0 ∧ 0 < 0) := by omega
            have c3 : ¬ (last - (0 + 1) < last - 1 ∧ last - 1 ≤ last) := by omega
            have c4 : last - 1 = last - (0 + 1) ∧ 0 < 0 + 1 := by omega
            simp only [c0, c1, c2, c3, c4, hx, h1, if_true, if_false, and_self, and_true, true_and, and_false, false_and,
              lt_self_iff_false, Option.map_some']
          | succ m =>
            have c1 : last - 1 - (m + 1) < last - 1 ∧ last - 1 ≤ last - 1 := by omega
            have c3 : last - (m + 1 + 1) < last - 1 ∧ last - 1 ≤ last := by omega
            have c5 : last ≠ last - 1 - 1 ∧ last - 1 ≠ last - 1 - 1 := by omega
            simp only [c1, c3, c5, if_true, if_false, and_self, and_true, true_and, and_false, false_and,
              lt_self_iff_false]
        · simp only [hjl, hjl1, if_false]
          split_ifs <;> first | rfl | omega

end LoopLemmas



section ListLemmas

variable {α : Type}

theorem getElem?_take_cons_drop (l : List α) (i : Nat) (x : α) (h : i ≤ l.length) (j : Nat) :
    (l.take i ++ [x] ++ l.drop i)[j]? =
      if j < i then l[j]? else if j = i then some x else l[j - 1]? := by
  have hl : (l.take i).length = i := by simp [h]
  by_cases h1 : j < i
  · rw [if_pos h1, List.append_assoc, List.getElem?_append_left (by omega),
      List.getElem?_take_of_lt h1]
  · rw [if_neg h1, List.append_assoc, List.getElem?_append_right (by omega), hl]
    by_cases h2 : j = i
    · subst h2
      simp
    · rw [if_neg h2]
      obtain ⟨k, hk⟩ : ∃ k, j - i = k + 1 := ⟨j - i - 1, by omega⟩
      rw [hk, List.singleton_append, List.getElem?_cons_succ, List.getElem?_drop]
      congr 1
      omega

theorem getElem?_append_singleton (l : List α) (x : α) (j : Nat) :
    (l ++ [x])[j]? = if j < l.length then l[j]? else if j = l.length then some x else none := by
  by_cases h1 : j < l.length
  · rw [if_pos h1, List.getElem?_append_left h1]
  · rw [if_neg h1, List.getElem?_append_right (by omega)]
    by_cases h2 : j = l.length
    · subst h2
      simp
    · rw [if_neg h2]
      obtain ⟨k, hk⟩ : ∃ k, j - l.length = k + 1 := ⟨j - l.length - 1, by omega⟩
      rw [hk]
      rfl

theorem alloc_length [Elem α] (n : Nat) : (ArrayPtr.alloc n : ArrayPtr α).raw_ptr_.length = n := by
  unfold ArrayPtr.alloc
  split_ifs with h
  · simp
  · simp only [List.length_nil]
    omega

end ListLemmas

namespace SimpleVector

variable {α : Type}

theorem toList_getElem? (v : SimpleVector α) (j : Nat) :
    v.toList[j]? = if j < v.size_ then v.array_.raw_ptr_[j]? else none := by
  simp [toList, List.getElem?_take]

theorem toList_length (v : SimpleVector α) (h : v.WF) : v.toList.length = v.size_ := by
  simp [toList, h.1, h.2]

theorem shift_right_within (mv : α → α) (a : ArrayPtr α) (pos size : Nat) (value : α)
    (hp : pos ≤ size) (hs : size < a.raw_ptr_.length) :
    ∃ a1 a2, std_move_backward_within mv a pos size (size + 1) = .ok a1 ∧
      a1.set pos value = .ok a2 ∧ a2.raw_ptr_.length = a.raw_ptr_.length ∧
      ∀ j, j ≤ size → a2.raw_ptr_[j]? =
        if j < pos then a.raw_ptr_[j]? else if j = pos then some value
        else a.raw_ptr_[j - 1]? := by
  obtain ⟨a1, e1, hl1, hj1⟩ :=
    moveBackwardLoopWithin_ok mv (size - pos) a size (by omega) (by omega)
  have hp1 : pos < a1.raw_ptr_.length := by omega
  refine ⟨a1, ⟨a1.raw_ptr_.set pos value⟩, ?_, ?_, ?_, ?_⟩
  · simp [std_move_backward_within, hp, e1]
  · simp [ArrayPtr.set, hp1]
  · simpa using hl1
  · intro j hj
    have e0 : size - (size - pos) = pos := by omega
    simp only [List.getElem?_set, hj1 j, e0, hp1]
    split_ifs <;> first | rfl | omega

theorem shift_right_into (mv : α → α) (a dst : ArrayPtr α) (pos size : Nat) (value : α)
    (hp : pos ≤ size) (hs : size ≤ a.raw_ptr_.length) (hd : size + 1 ≤ dst.raw_ptr_.length) :
    ∃ o1 d1 o2 d2 d3, std_move mv a dst 0 pos 0 = .ok (o1, d1) ∧
      std_move_backward mv o1 d1 pos size (size + 1) = .ok (o2, d2) ∧
      d2.set pos value = .ok d3 ∧ d3.raw_ptr_.length = dst.raw_ptr_.length ∧
      ∀ j, j ≤ size → d3.raw_ptr_[j]? =
        if j < pos then a.raw_ptr_[j]? else if j = pos then some value
        else a.raw_ptr_[j - 1]? := by
  obtain ⟨o1, d1, e1, hlo1, hld1, hjo1, hjd1⟩ :=
    moveLoop_ok mv pos a dst 0 0 (by omega) (by omega)
  obtain ⟨o2, d2, e2, _, hld2, _, hjd2⟩ :=
    moveBackwardLoop_ok mv (size - pos) o1 d1 size (size + 1) (by omega) (by omega)
      (by omega) (by omega)
  have hp2 : pos < d2.raw_ptr_.length := by omega
  refine ⟨o1, d1, o2, d2, ⟨d2.raw_ptr_.set pos value⟩, ?_, ?_, ?_, ?_, ?_⟩
  · simp [std_move, e1]
  · simp [std_move_backward, hp, e2]
  · simp [ArrayPtr.set, hp2]
  · simp only [List.length_set]; omega
  · intro j hj
    simp only [List.getElem?_set, hjd2 j, hjd1 j, hjo1, hp2, Nat.zero_add, Nat.sub_zero,
      Nat.zero_le, true_and]
    have e3 : size - (size + 1 - j) = j - 1 := by omega
    rw [e3]
    split_ifs <;> first | rfl | omega

theorem insert_toList (v v' : SimpleVector α) (pos : Nat) (value : α) (h : v.WF)
    (hp : pos ≤ v.size_) (hs : v'.size_ = v.size_ + 1)
    (hj : ∀ j, j ≤ v.size_ → v'.array_.raw_ptr_[j]? =
      if j < pos then v.array_.raw_ptr_[j]? else if j = pos then some value
      else v.array_.raw_ptr_[j - 1]?) :
    v'.toList = v.toList.take pos ++ [value] ++ v.toList.drop pos := by
  apply List.ext_getElem?
  intro j
  rw [getElem?_take_cons_drop _ _ _ (by rw [toList_length v h]; exact hp)]
  simp only [toList_getElem?, hs]
  by_cases hjs : j ≤ v.size_
  · rw [if_pos (by omega), hj j hjs]
    split_ifs <;> first | rfl | omega
  · rw [if_neg (by omega), if_neg (by omega), if_neg (by omega), if_neg (by omega)]

theorem Insert_spec [Elem α] (v : SimpleVector α) (pos : Nat) (value : α) (h : v.WF)
    (hp : pos ≤ v.size_) :
    ∃ v', v.Insert pos (.object value) = .ok (v', pos) ∧ v'.WF ∧ v'.size_ = v.size_ + 1 ∧
      v'.capacity_ =
        (if v.size_ = v.capacity_ then max 1 (2 * v.capacity_) else v.capacity_) ∧
      v'.toList = v.toList.take pos ++ [value] ++ v.toList.drop pos := by
  have hwf := h
  obtain ⟨h1, h2⟩ := h
  by_cases hlt : v.size_ < v.capacity_
  · obtain ⟨a1, a2, e1, e2, hl, hj⟩ :=
      shift_right_within Elem.moved v.array_ pos v.size_ value hp (by omega)
    refine ⟨⟨a2, v.size_ + 1, v.capacity_⟩, ?_, ?_, rfl, ?_, ?_⟩
    · simp [Insert, Arg.take, hp, hlt, e1, e2, bind, Except.bind, pure, Except.pure]
    · exact ⟨by simp only; omega, by simp only; omega⟩
    · rw [if_neg (by omega)]
    · exact insert_toList v _ pos value hwf hp rfl hj
  · have hsz : v.size_ = v.capacity_ := by omega
    obtain ⟨o1, d1, o2, d2, d3, e1, e2, e3, hl, hj⟩ :=
      shift_right_into Elem.moved v.array_ (ArrayPtr.alloc (max 1 (2 * v.capacity_))) pos
        v.size_ value hp (by omega) (by rw [alloc_length]; omega)
    rw [alloc_length] at hl
    refine ⟨⟨d3, v.size_ + 1, max 1 (2 * v.capacity_)⟩, ?_, ?_, rfl, ?_, ?_⟩
    · simp [Insert, Arg.take, hp, hlt, e1, e2, e3, ArrayPtr.swap, bind, Except.bind, pure,
        Except.pure]
    · exact ⟨by simp only; omega, by simp only; omega⟩
    · rw [if_pos hsz]
    · exact insert_toList v _ pos value hwf hp rfl hj

theorem Insert_copy_spec [Elem α] (v : SimpleVector α) (pos : Nat) (value : α) (h : v.WF)
    (hp : pos ≤ v.size_) :
    ∃ v', v.Insert_copy pos (.object value) = .ok (v', pos) ∧ v'.WF ∧
      v'.size_ = v.size_ + 1 ∧
      v'.capacity_ =
        (if v.size_ = v.capacity_ then max 1 (2 * v.capacity_) else v.capacity_) ∧
      v'.toList = v.toList.take pos ++ [value] ++ v.toList.drop pos := by
  have hwf := h
  obtain ⟨h1, h2⟩ := h
  by_cases hlt : v.size_ < v.capacity_
  · obtain ⟨a1, a2, e1, e2, hl, hj⟩ :=
      shift_right_within id v.array_ pos v.size_ value hp (by omega)
    refine ⟨⟨a2, v.size_ + 1, v.capacity_⟩, ?_, ?_, rfl, ?_, ?_⟩
    · simp [Insert_copy, Arg.read, hp, hlt, e1, e2, bind, Except.bind, pure, Except.pure]
    · exact ⟨by simp only; omega, by simp only; omega⟩
    · rw [if_neg (by omega)]
    · exact insert_toList v _ pos value hwf hp rfl hj
  · have hsz : v.size_ = v.capacity_ := by omega
    obtain ⟨o1, d1, o2, d2, d3, e1, e2, e3, hl, hj⟩ :=
      shift_right_into id v.array_ (ArrayPtr.alloc (max 1 (2 * v.capacity_))) pos
        v.size_ value hp (by omega) (by rw [alloc_length]; omega)
    rw [alloc_length] at hl
    refine ⟨⟨d3, v.size_ + 1, max 1 (2 * v.capacity_)⟩, ?_, ?_, rfl, ?_, ?_⟩
    · simp [Insert_copy, Arg.read, hp, hlt, e1, e2, e3, ArrayPtr.swap, bind, Except.bind,
        pure, Except.pure]
    · exact ⟨by simp only; omega, by simp only; omega⟩
    · rw [if_pos hsz]
    · exact insert_toList v _ pos value hwf hp rfl hj

theorem Erase_spec [Elem α] (v : SimpleVector α) (pos : Nat) (h : v.WF) (hp : pos < v.size_) :
    ∃ v', v.Erase pos = .ok (v', pos) ∧ v'.WF ∧ v'.size_ = v.size_ - 1 ∧
      v'.capacity_ = v.capacity_ ∧ v'.toList = v.toList.eraseIdx pos := by
  obtain ⟨h1, h2⟩ := h
  obtain ⟨a', e, hl, hj⟩ :=
    moveLoopWithin_ok Elem.moved (v.size_ - (pos + 1)) v.array_ pos (by omega)
  refine ⟨⟨a', v.size_ - 1, v.capacity_⟩, ?_, ?_, rfl, rfl, ?_⟩
  · have hp1 : pos + 1 ≤ v.size_ := hp
    simp [Erase, hp, std_move_within, hp1, e, bind, Except.bind, pure, Except.pure]
  · exact ⟨by simp only; omega, by simp only; omega⟩
  · apply List.ext_getElem?
    intro j
    rw [List.getElem?_eraseIdx]
    simp only [toList_getElem?, hj j]
    split_ifs <;> first | rfl | omega

theorem At_of_slot (v : SimpleVector α) (j : Nat) (x : α) (hj : j < v.size_)
    (hx : v.array_.raw_ptr_[j]? = some x) : v.At j = .ok x := by
  have c1 : ¬ j ≥ v.size_ := by omega
  simp [At, c1, ArrayPtr.get, hx]

theorem fill_ok (a : ArrayPtr α) (first last : Nat) (value : α) (h1 : first ≤ last)
    (h2 : last ≤ a.raw_ptr_.length) :
    ∃ a', fill a first last value = .ok a' ∧ a'.raw_ptr_.length = a.raw_ptr_.length ∧
      ∀ j, a'.raw_ptr_[j]? =
        if first ≤ j ∧ j < last then some value else a.raw_ptr_[j]? := by
  obtain ⟨a', e, hl, hj⟩ := fillLoop_ok value (last - first) a first (by omega)
  refine ⟨a', by simp [fill, h1, e], hl, ?_⟩
  intro j
  rw [hj j]
  have e0 : first + (last - first) = last := by omega
  rw [e0]

theorem ofSize_spec [Elem α] (size : Nat) :
    ∃ a : ArrayPtr α, ofSize size = .ok ⟨a, size, size⟩ ∧ a.raw_ptr_.length = size ∧
      ∀ j, j < size → a.raw_ptr_[j]? = some Elem.dflt := by
  obtain ⟨a, e, hl, hj⟩ :=
    fill_ok (ArrayPtr.alloc size : ArrayPtr α) 0 (0 + size) Elem.dflt (by omega)
      (by rw [alloc_length]; omega)
  rw [alloc_length] at hl
  rw [Nat.zero_add] at e
  refine ⟨a, by simp [ofSize, ofSizeValue, e, bind, Except.bind, pure, Except.pure], hl, ?_⟩
  intro j hjs
  rw [hj j, if_pos (by omega)]

theorem Reserve_spec [Elem α] (v : SimpleVector α) (c : Nat) (h : v.WF) :
    ∃ v', v.Reserve c = .ok v' ∧ v'.WF ∧ v'.capacity_ = max v.capacity_ c ∧
      v'.size_ = v.size_ ∧
      (∀ j, j < v.size_ → v'.array_.raw_ptr_[j]? = v.array_.raw_ptr_[j]?) ∧
      (∀ j, v.size_ ≤ j → j < c → v.capacity_ < c →
        v'.array_.raw_ptr_[j]? = some Elem.dflt) := by
  obtain ⟨h1, h2⟩ := h
  by_cases hc : c > v.capacity_
  · obtain ⟨a, e, hl, hja⟩ := @ofSize_spec α _ c
    obtain ⟨src', dst', e2, _, hld, _, hjd⟩ :=
      moveLoop_ok id v.size_ v.array_ a 0 0 (by omega) (by omega)
    refine ⟨⟨dst', v.size_, c⟩, ?_, ?_, ?_, rfl, ?_, ?_⟩
    · simp [Reserve, hc, e, std_move, e2, swap, ArrayPtr.swap, bind, Except.bind, pure,
        Except.pure]
    · exact ⟨by simp only; omega, by simp only; omega⟩
    · simp only; omega
    · intro j hj
      simp only [hjd j, Nat.zero_add, Nat.sub_zero, Nat.zero_le, true_and, if_pos hj]
    · intro j hj1 hj2 _
      simp only [hjd j, Nat.zero_add, Nat.sub_zero, Nat.zero_le, true_and]
      rw [if_neg (by omega)]
      exact hja j hj2
  · refine ⟨v, ?_, ⟨h1, h2⟩, ?_, rfl, fun _ _ => rfl, ?_⟩
    · simp [Reserve, hc, pure, Except.pure]
    · omega
    · intro j _ _ h3
      exact absurd h3 hc

theorem Resize_shrink_spec [Elem α] (v : SimpleVector α) (n : Nat) (h : v.WF)
    (hn : n < v.size_) :
    ∃ a, v.Resize n = .ok ⟨a, n, v.capacity_⟩ ∧ a.raw_ptr_.length = v.capacity_ ∧
      ∀ j, a.raw_ptr_[j]? =
        if n ≤ j ∧ j < v.size_ then some Elem.dflt else v.array_.raw_ptr_[j]? := by
  obtain ⟨h1, h2⟩ := h
  obtain ⟨a, e, hl, hj⟩ := fill_ok v.array_ n v.size_ Elem.dflt (by omega) (by omega)
  refine ⟨a, ?_, by omega, hj⟩
  have c1 : ¬ n = v.size_ := by omega
  have c2 : ¬ n > v.capacity_ := by omega
  simp [Resize, c1, hn, c2, e, bind, Except.bind, pure, Except.pure]

theorem Resize_within_spec [Elem α] (v : SimpleVector α) (n : Nat)
    (hn : v.size_ < n) (hc : n ≤ v.capacity_) :
    v.Resize n = .ok ⟨v.array_, n, v.capacity_⟩ := by
  have c1 : ¬ n = v.size_ := by omega
  have c2 : ¬ n > v.capacity_ := by omega
  have c3 : ¬ n < v.size_ := by omega
  simp [Resize, c1, c2, c3, bind, Except.bind, pure, Except.pure]

theorem Resize_grow_spec [Elem α] (v : SimpleVector α) (n : Nat) (h : v.WF)
    (hn : n > v.capacity_) :
    ∃ a, v.Resize n = .ok ⟨a, n, max n (2 * v.capacity_)⟩ ∧
      a.raw_ptr_.length = max n (2 * v.capacity_) ∧
      (∀ j, j < v.size_ → a.raw_ptr_[j]? = v.array_.raw_ptr_[j]?) ∧
      (∀ j, v.size_ ≤ j → j < n → a.raw_ptr_[j]? = some Elem.dflt) := by
  obtain ⟨h1, h2⟩ := h
  obtain ⟨src', dst', e, _, hld, _, hjd⟩ :=
    moveLoop_ok Elem.moved v.size_ v.array_ (ArrayPtr.alloc (max n (2 * v.capacity_))) 0 0
      (by omega) (by rw [alloc_length]; omega)
  rw [alloc_length] at hld
  obtain ⟨a, e2, hl, hj⟩ := fill_ok dst' v.size_ n Elem.dflt (by omega) (by omega)
  refine ⟨a, ?_, by omega, ?_, ?_⟩
  · have c1 : ¬ n = v.size_ := by omega
    have c3 : ¬ n < v.size_ := by omega
    simp [Resize, c1, c3, hn, std_move, e, e2, ArrayPtr.swap, bind, Except.bind, pure,
      Except.pure]
  · intro j hjs
    rw [hj j, if_neg (by omega), hjd j]
    simp only [Nat.zero_add, Nat.sub_zero, Nat.zero_le, true_and, if_pos hjs]
  · intro j hj1 hj2
    rw [hj j, if_pos ⟨hj1, hj2⟩]

theorem PushBack_spec [Elem α] (v : SimpleVector α) (item : α) (h : v.WF) :
    ∃ v', v.PushBack item = .ok v' ∧ v'.WF ∧ v'.size_ = v.size_ + 1 ∧
      v'.capacity_ = (if v.size_ < v.capacity_ then v.capacity_ else max 1 (2 * v.capacity_)) ∧
      v'.toList = v.toList ++ [item] := by
  obtain ⟨h1, h2⟩ := h
  by_cases hlt : v.size_ < v.capacity_
  · have hs : v.size_ < v.array_.raw_ptr_.length := by omega
    refine ⟨⟨⟨v.array_.raw_ptr_.set v.size_ item⟩, v.size_ + 1, v.capacity_⟩, ?_, ?_, rfl, ?_, ?_⟩
    · simp [PushBack, hlt, ArrayPtr.set, hs, bind, Except.bind, pure, Except.pure]
    · exact ⟨by simp only; omega, by simpa using h2⟩
    · simp [hlt]
    · apply List.ext_getElem?
      intro j
      rw [toList_getElem?, getElem?_append_singleton, toList_length v ⟨h1, h2⟩, toList_getElem?]
      simp only [List.getElem?_set]
      split_ifs <;> first | rfl | omega
  · have hsz : v.size_ = v.capacity_ := by omega
    have hcap : v.size_ + 1 ≤ max 1 (2 * v.capacity_) := by omega
    obtain ⟨src', dst', e, _, hld, _, hjd⟩ :=
      moveLoop_ok Elem.moved v.size_ v.array_ (ArrayPtr.alloc (max 1 (2 * v.capacity_))) 0 0
        (by omega) (by rw [alloc_length]; omega)
    rw [alloc_length] at hld
    have hs : v.size_ < dst'.raw_ptr_.length := by omega
    refine ⟨⟨⟨dst'.raw_ptr_.set v.size_ item⟩, v.size_ + 1, max 1 (2 * v.capacity_)⟩,
      ?_, ?_, rfl, ?_, ?_⟩
    · simp [PushBack, hlt, std_move, e, ArrayPtr.set, ArrayPtr.swap, hs, bind, Except.bind,
        pure, Except.pure]
    · exact ⟨by simp only; omega, by simpa using hld⟩
    · simp [hlt]
    · apply List.ext_getElem?
      intro j
      rw [toList_getElem?, getElem?_append_singleton, toList_length v ⟨h1, h2⟩, toList_getElem?]
      simp only [List.getElem?_set, hjd j, Nat.zero_add, Nat.sub_zero, Nat.zero_le, true_and]
      split_ifs <;> first | rfl | omega

theorem pushAll_spec [Elem α] (items : List α) : ∀ v : SimpleVector α, v.WF →
    (v.size_ = 0 ∧ v.capacity_ = 0 ∨ ∃ e, v.capacity_ = 2 ^ e ∧ v.capacity_ < 2 * v.size_) →
    ∃ v', pushAll v items = .ok v' ∧ v'.WF ∧ v'.size_ = v.size_ + items.length ∧
      v'.toList = v.toList ++ items ∧
      (v'.size_ = 0 ∧ v'.capacity_ = 0 ∨
        ∃ e, v'.capacity_ = 2 ^ e ∧ v'.capacity_ < 2 * v'.size_) := by
  induction items with
  | nil =>
    intro v h hd
    exact ⟨v, rfl, h, rfl, by simp, hd⟩
  | cons x items ih =>
    intro v h hd
    obtain ⟨v1, e1, wf1, hs1, hc1, hl1⟩ := PushBack_spec v x h
    have hd1 : v1.size_ = 0 ∧ v1.capacity_ = 0 ∨
        ∃ e, v1.capacity_ = 2 ^ e ∧ v1.capacity_ < 2 * v1.size_ := by
      right
      rcases hd with ⟨z1, z2⟩ | ⟨e, he, hlt⟩
      · refine ⟨0, ?_, ?_⟩
        · rw [hc1, z1, z2]; rfl
        · rw [hc1, z1, z2, hs1, z1]; decide
      · by_cases hcmp : v.size_ < v.capacity_
        · rw [if_pos hcmp] at hc1
          exact ⟨e, by rw [hc1, he], by omega⟩
        · rw [if_neg hcmp] at hc1
          have hpos : 0 < v.capacity_ := by rw [he]; exact Nat.pow_pos (by decide)
          refine ⟨e + 1, ?_, ?_⟩
          · rw [hc1, pow_succ, ← he]; omega
          · have := h.1
            omega
    obtain ⟨v2, e2, wf2, hs2, hl2, hd2⟩ := ih v1 wf1 hd1
    refine ⟨v2, ?_, wf2, ?_, ?_, hd2⟩
    · simp [pushAll, e1, bind, Except.bind, e2]
    · rw [hs2, hs1, List.length_cons]; omega
    · rw [hl2, hl1]; simp

theorem slot_of_lt (v : SimpleVector α) (j : Nat) (h : v.WF) (hj : j < v.size_) :
    ∃ x, v.array_.raw_ptr_[j]? = some x := by
  have hlt : j < v.array_.raw_ptr_.length := by
    have := h.1
    have := h.2
    omega
  exact ⟨v.array_.raw_ptr_[j], by simp [hlt]⟩

theorem At_of_toList (v : SimpleVector α) (j : Nat) (x : α) (hx : v.toList[j]? = some x) :
    v.At j = .ok x := by
  rw [toList_getElem?] at hx
  by_cases hj : j < v.size_
  · rw [if_pos hj] at hx
    exact At_of_slot v j x hj hx
  · rw [if_neg hj] at hx
    cases hx

theorem toList_eq_of_slots (v v' : SimpleVector α) (hs : v'.size_ = v.size_)
    (hj : ∀ j, j < v.size_ → v'.array_.raw_ptr_[j]? = v.array_.raw_ptr_[j]?) :
    v'.toList = v.toList := by
  apply List.ext_getElem?
  intro j
  simp only [toList_getElem?, hs]
  split_ifs with hjs
  · exact hj j hjs
  · rfl

theorem eraseIdx_take_cons_drop (l : List α) (i : Nat) (x : α) (h : i ≤ l.length) :
    (l.take i ++ [x] ++ l.drop i).eraseIdx i = l := by
  apply List.ext_getElem?
  intro j
  rw [List.getElem?_eraseIdx]
  simp only [getElem?_take_cons_drop l i x h]
  split_ifs <;> first | rfl | omega

theorem copy_block_ok (src dst : ArrayPtr α) (n : Nat) (hs : n ≤ src.raw_ptr_.length)
    (hd : n ≤ dst.raw_ptr_.length) :
    ∃ dst', std_move id src dst 0 n 0 = .ok (src, dst') ∧
      dst'.raw_ptr_.length = dst.raw_ptr_.length ∧
      (∀ j, j < n → dst'.raw_ptr_[j]? = src.raw_ptr_[j]?) ∧
      (∀ j, n ≤ j → dst'.raw_ptr_[j]? = dst.raw_ptr_[j]?) := by
  obtain ⟨src', dst', e, _, hld, hjs, hjd⟩ := moveLoop_ok id n src dst 0 0 (by omega) (by omega)
  have hsrc : src' = src := by
    cases src' with
    | mk l' =>
      cases src with
      | mk l =>
        congr 1
        apply List.ext_getElem?
        intro k
        have := hjs k
        simp only [Option.map_id_fun, id_eq, ite_self] at this
        exact this
  subst hsrc
  refine ⟨dst', by simp [std_move, e], hld, ?_, ?_⟩
  · intro k hk
    rw [hjd k]
    simp only [Nat.zero_add, Nat.sub_zero, Nat.zero_le, true_and, if_pos hk]
  · intro k hk
    rw [hjd k, if_neg (by omega)]

theorem copy_backward_block_ok (src dst : ArrayPtr α) (first last d_last : Nat)
    (hf : first ≤ last) (hs : last ≤ src.raw_ptr_.length) (hn : last - first ≤ d_last)
    (hd : d_last ≤ dst.raw_ptr_.length) :
    ∃ dst', std_move_backward id src dst first last d_last = .ok (src, dst') ∧
      dst'.raw_ptr_.length = dst.raw_ptr_.length ∧
      ∀ j, dst'.raw_ptr_[j]? =
        if d_last - (last - first) ≤ j ∧ j < d_last then src.raw_ptr_[last - (d_last - j)]?
        else dst.raw_ptr_[j]? := by
  obtain ⟨src', dst', e, _, hld, hjs, hjd⟩ :=
    moveBackwardLoop_ok id (last - first) src dst last d_last (by omega) hs hn hd
  have hsrc : src' = src := by
    cases src' with
    | mk l' =>
      cases src with
      | mk l =>
        congr 1
        apply List.ext_getElem?
        intro k
        have := hjs k
        simp only [Option.map_id_fun, id_eq, ite_self] at this
        exact this
  subst hsrc
  exact ⟨dst', by simp [std_move_backward, hf, e], hld, hjd⟩

theorem shift_within_ok (mv : α → α) (a : ArrayPtr α) (pos size : Nat)
    (hp : pos ≤ size) (hs : size < a.raw_ptr_.length) :
    ∃ a1, std_move_backward_within mv a pos size (size + 1) = .ok a1 ∧
      a1.raw_ptr_.length = a.raw_ptr_.length ∧
      ∀ j, a1.raw_ptr_[j]? =
        if pos < j ∧ j ≤ size then a.raw_ptr_[j - 1]?
        else if j = pos ∧ pos < size then (a.raw_ptr_[j]?).map mv else a.raw_ptr_[j]? := by
  obtain ⟨a1, e1, hl1, hj1⟩ :=
    moveBackwardLoopWithin_ok mv (size - pos) a size (by omega) (by omega)
  refine ⟨a1, by simp [std_move_backward_within, hp, e1], hl1, ?_⟩
  intro j
  have e0 : size - (size - pos) = pos := by omega
  rw [hj1 j, e0]
  split_ifs <;> first | rfl | omega

theorem Insert_copy_slot_spec [Elem α] (v : SimpleVector α) (pos k : Nat) (h : v.WF)
    (hp : pos ≤ v.size_) (hk : k < v.capacity_) :
    ∃ v' x, v.Insert_copy pos (.slot k) = .ok (v', pos) ∧ v'.WF ∧
      v'.size_ = v.size_ + 1 ∧
      v'.capacity_ =
        (if v.size_ = v.capacity_ then max 1 (2 * v.capacity_) else v.capacity_) ∧
      v'.toList = v.toList.take pos ++ [x] ++ v.toList.drop pos ∧
      v.array_.raw_ptr_[if v.size_ < v.capacity_ ∧ pos < k ∧ k ≤ v.size_ then k - 1
        else k]? = some x := by
  have hwf := h
  obtain ⟨h1, h2⟩ := h
  by_cases hlt : v.size_ < v.capacity_
  · obtain ⟨a1, e1, hl1, hj1⟩ := shift_within_ok id v.array_ pos v.size_ hp (by omega)
    obtain ⟨x, hx, gx⟩ := get_of_lt a1 k (by omega)
    have hpl : pos < a1.raw_ptr_.length := by omega
    refine ⟨⟨⟨a1.raw_ptr_.set pos x⟩, v.size_ + 1, v.capacity_⟩, x, ?_, ?_, rfl, ?_, ?_, ?_⟩
    · simp [Insert_copy, Arg.read, hp, hlt, e1, gx, ArrayPtr.set, hpl, bind, Except.bind,
        pure, Except.pure]
    · exact ⟨by simp only; omega, by simp only [List.length_set]; omega⟩
    · rw [if_neg (by omega)]
    · apply insert_toList v _ pos x hwf hp rfl
      intro j hj
      simp only [List.getElem?_set, hj1 j, hpl, Option.map_id_fun, id_eq]
      split_ifs <;> first | rfl | omega
    · rw [← hx, hj1 k]
      simp only [Option.map_id_fun, id_eq, ite_self]
      split_ifs <;> first | rfl | omega
  · have hsz : v.size_ = v.capacity_ := by omega
    obtain ⟨d1, e1, hld1, hjd1, hjd1'⟩ :=
      copy_block_ok v.array_ (ArrayPtr.alloc (max 1 (2 * v.capacity_)) : ArrayPtr α) pos
        (by omega) (by rw [alloc_length]; omega)
    rw [alloc_length] at hld1
    obtain ⟨d2, e2, hld2, hjd2⟩ :=
      copy_backward_block_ok v.array_ d1 pos v.size_ (v.size_ + 1) hp (by omega) (by omega)
        (by omega)
    obtain ⟨x, hx, gx⟩ := get_of_lt v.array_ k (by omega)
    have hpl : pos < d2.raw_ptr_.length := by omega
    refine ⟨⟨⟨d2.raw_ptr_.set pos x⟩, v.size_ + 1, max 1 (2 * v.capacity_)⟩, x, ?_, ?_, rfl,
      ?_, ?_, ?_⟩
    · simp [Insert_copy, Arg.read, hp, hlt, e1, e2, gx, ArrayPtr.set, hpl, ArrayPtr.swap,
        bind, Except.bind, pure, Except.pure]
    · exact ⟨by simp only; omega, by simp only [List.length_set]; omega⟩
    · rw [if_pos hsz]
    · apply insert_toList v _ pos x hwf hp rfl
      intro j hj
      simp only [List.getElem?_set, hjd2 j, hpl]
      by_cases hjp : j < pos
      · have c1 : ¬ (v.size_ + 1 - (v.size_ - pos) ≤ j ∧ j < v.size_ + 1) := by omega
        have c2 : pos ≠ j := by omega
        simp only [c1, c2, hjp, if_true, if_false]
        exact hjd1 j hjp
      · by_cases hje : j = pos
        · subst hje
          simp
        · have c1 : v.size_ + 1 - (v.size_ - pos) ≤ j ∧ j < v.size_ + 1 := by omega
          have c2 : pos ≠ j := by omega
          have e3 : v.size_ - (v.size_ + 1 - j) = j - 1 := by omega
          simp only [c1, c2, hjp, hje, e3, and_self, if_true, if_false]
    · rw [if_neg (by omega)]
      exact hx

theorem ofCopy_spec [Elem α] (other : SimpleVector α) (h : other.Live) :
    ∃ a, ofCopy other = .ok (⟨a, other.size_, other.capacity_⟩, other) ∧
      a.raw_ptr_.length = other.size_ ∧
      ∀ j, j < other.size_ → a.raw_ptr_[j]? = other.array_.raw_ptr_[j]? := by
  obtain ⟨a, e, hl, hj, _⟩ :=
    copy_block_ok other.array_ (ArrayPtr.alloc other.size_ : ArrayPtr α) other.size_ h
      (by rw [alloc_length])
  rw [alloc_length] at hl
  refine ⟨a, ?_, hl, hj⟩
  simp [ofCopy, GetSize, e, bind, Except.bind, pure, Except.pure]

theorem assign_body_ok [Elem α] (v rhs : SimpleVector α) (h : rhs.Live) :
    (rhs.size_ = 0 → assign_copy v rhs false = .ok (v.Clear, rhs) ∧
      assign_move v rhs false = .ok (v.Clear, rhs)) ∧
    (rhs.size_ ≠ 0 → ∃ a,
      assign_copy v rhs false = .ok (⟨a, rhs.size_, rhs.capacity_⟩, rhs) ∧
      assign_move v rhs false = .ok (⟨a, rhs.size_, rhs.capacity_⟩, rhs) ∧
      a.raw_ptr_.length = rhs.size_ ∧
      ∀ j, j < rhs.size_ → a.raw_ptr_[j]? = rhs.array_.raw_ptr_[j]?) := by
  constructor
  · intro hz
    simp [assign_copy, assign_move, IsEmpty, hz, pure, Except.pure]
  · intro hnz
    obtain ⟨a0, e0, hl0, _⟩ := @ofSize_spec α _ rhs.size_
    obtain ⟨a, e, hl, hj, _⟩ := copy_block_ok rhs.array_ a0 rhs.size_ h (by omega)
    refine ⟨a, ?_, ?_, by omega, hj⟩
    · simp [assign_copy, IsEmpty, hnz, e0, e, swap, ArrayPtr.swap, bind, Except.bind, pure,
        Except.pure]
    · simp [assign_move, IsEmpty, hnz, e0, e, swap, ArrayPtr.swap, bind, Except.bind, pure,
        Except.pure]

theorem ofSizeValue_fields [Elem α] (n : Nat) (x : α) (t : SimpleVector α)
    (h : ofSizeValue n x = .ok t) : t.size_ = n ∧ t.capacity_ = n := by
  unfold ofSizeValue at h
  simp only [bind, Except.bind, pure, Except.pure] at h
  split at h
  · cases h
  · cases h
    exact ⟨rfl, rfl⟩

theorem ofSize_fields [Elem α] (n : Nat) (t : SimpleVector α)
    (h : ofSize n = .ok t) : t.size_ = n ∧ t.capacity_ = n :=
  ofSizeValue_fields n Elem.dflt t h

theorem Reserve_fields [Elem α] (v v' : SimpleVector α) (c : Nat)
    (h : v.Reserve c = .ok v') : v'.size_ = v.size_ ∧ v'.capacity_ = max v.capacity_ c := by
  unfold Reserve at h
  simp only [bind, Except.bind, pure, Except.pure, swap, ArrayPtr.swap] at h
  split_ifs at h with hlt
  · split at h
    · cases h
    · have hf := ofSize_fields _ _ ‹ofSize c = Except.ok _›
      split at h
      · cases h
      · cases h
        exact ⟨rfl, by dsimp only; omega⟩
  · cases h
    exact ⟨rfl, by omega⟩

theorem PushBack_copy_inv [Elem α] (v v' : SimpleVector α) (item : Arg α)
    (hv : v.size_ ≤ v.capacity_) (h : v.PushBack_copy item = .ok v') :
    v'.size_ ≤ v'.capacity_ := by
  unfold PushBack_copy at h
  simp only [bind, Except.bind, pure, Except.pure] at h
  split_ifs at h
  all_goals repeat' split at h
  all_goals cases h
  all_goals first
    | exact hv
    | (have hf := Reserve_fields _ _ _ ‹v.Reserve _ = Except.ok _›
       dsimp only
       omega)

theorem PushBack_inv [Elem α] (v v' : SimpleVector α) (item : α) (hv : v.size_ ≤ v.capacity_)
    (h : v.PushBack item = .ok v') : v'.size_ ≤ v'.capacity_ := by
  unfold PushBack at h
  simp only [bind, Except.bind, pure, Except.pure, ArrayPtr.swap] at h
  split_ifs at h
  all_goals repeat' split at h
  all_goals cases h
  all_goals dsimp only
  all_goals omega

theorem Resize_inv [Elem α] (v v' : SimpleVector α) (n : Nat) (hv : v.size_ ≤ v.capacity_)
    (h : v.Resize n = .ok v') : v'.size_ ≤ v'.capacity_ := by
  unfold Resize at h
  simp only [bind, Except.bind, pure, Except.pure, ArrayPtr.swap] at h
  split_ifs at h
  all_goals repeat' split at h
  all_goals cases h
  all_goals try dsimp only
  all_goals omega

theorem Insert_inv [Elem α] (v : SimpleVector α) (r : SimpleVector α × Nat) (pos : Nat)
    (value : Arg α) (hv : v.size_ ≤ v.capacity_) (h : v.Insert pos value = .ok r) :
    r.1.size_ ≤ r.1.capacity_ := by
  unfold Insert at h
  simp only [bind, Except.bind, pure, Except.pure, ArrayPtr.swap] at h
  split_ifs at h
  all_goals repeat' split at h
  all_goals cases h
  all_goals try dsimp only
  all_goals omega

theorem Insert_copy_inv [Elem α] (v : SimpleVector α) (r : SimpleVector α × Nat) (pos : Nat)
    (value : Arg α) (hv : v.size_ ≤ v.capacity_) (h : v.Insert_copy pos value = .ok r) :
    r.1.size_ ≤ r.1.capacity_ := by
  unfold Insert_copy at h
  simp only [bind, Except.bind, pure, Except.pure, ArrayPtr.swap] at h
  split_ifs at h
  all_goals repeat' split at h
  all_goals cases h
  all_goals try dsimp only
  all_goals omega

theorem Erase_inv [Elem α] (v : SimpleVector α) (r : SimpleVector α × Nat) (pos : Nat)
    (hv : v.size_ ≤ v.capacity_) (h : v.Erase pos = .ok r) :
    r.1.size_ ≤ r.1.capacity_ := by
  unfold Erase at h
  simp only [bind, Except.bind, pure, Except.pure] at h
  split_ifs at h
  all_goals repeat' split at h
  all_goals cases h
  all_goals try dsimp only
  all_goals omega

theorem PopBack_inv (v v' : SimpleVector α) (hv : v.size_ ≤ v.capacity_)
    (h : v.PopBack = .ok v') : v'.size_ ≤ v'.capacity_ := by
  unfold PopBack at h
  simp only [pure, Except.pure] at h
  split_ifs at h
  all_goals cases h
  all_goals try dsimp only
  all_goals omega

theorem ofCopy_inv [Elem α] (other : SimpleVector α) (r : SimpleVector α × SimpleVector α)
    (hv : other.size_ ≤ other.capacity_) (h : ofCopy other = .ok r) :
    r.1.size_ ≤ r.1.capacity_ ∧ r.2.size_ ≤ r.2.capacity_ := by
  unfold ofCopy at h
  simp only [bind, Except.bind, pure, Except.pure] at h
  split at h
  · cases h
  · cases h
    exact ⟨hv, hv⟩

theorem assign_copy_inv [Elem α] (v rhs : SimpleVector α) (s : Bool)
    (r : SimpleVector α × SimpleVector α)
    (hv : v.size_ ≤ v.capacity_) (hr : rhs.size_ ≤ rhs.capacity_)
    (h : assign_copy v rhs s = .ok r) :
    r.1.size_ ≤ r.1.capacity_ ∧ r.2.size_ ≤ r.2.capacity_ := by
  unfold assign_copy at h
  simp only [bind, Except.bind, pure, Except.pure, swap, ArrayPtr.swap, Clear] at h
  split_ifs at h
  · cases h
    exact ⟨Nat.zero_le _, hr⟩
  · split at h
    · cases h
    · have hf := ofSize_fields _ _ ‹ofSize rhs.size_ = Except.ok _›
      split at h
      · cases h
      · cases h
        exact ⟨by dsimp only; omega, hr⟩
  · cases h
    exact ⟨hv, hr⟩

theorem assign_move_inv [Elem α] (v rhs : SimpleVector α) (s : Bool)
    (r : SimpleVector α × SimpleVector α)
    (hv : v.size_ ≤ v.capacity_) (hr : rhs.size_ ≤ rhs.capacity_)
    (h : assign_move v rhs s = .ok r) :
    r.1.size_ ≤ r.1.capacity_ ∧ r.2.size_ ≤ r.2.capacity_ :=
  assign_copy_inv v rhs s r hv hr h

theorem ofSizeValue_spec [Elem α] (size : Nat) (value : α) :
    ∃ a : ArrayPtr α, ofSizeValue size value = .ok ⟨a, size, size⟩ ∧
      a.raw_ptr_.length = size ∧ ∀ j, j < size → a.raw_ptr_[j]? = some value := by
  obtain ⟨a, e, hl, hj⟩ :=
    fill_ok (ArrayPtr.alloc size : ArrayPtr α) 0 (0 + size) value (by omega)
      (by rw [alloc_length]; omega)
  rw [alloc_length] at hl
  rw [Nat.zero_add] at e
  refine ⟨a, by simp [ofSizeValue, e, bind, Except.bind, pure, Except.pure], hl, ?_⟩
  intro j hjs
  rw [hj j, if_pos (by omega)]

theorem ofInitList_spec [Elem α] (other : List α) :
    ∃ a : ArrayPtr α, ofInitList other = .ok ⟨a, other.length, other.length⟩ ∧
      a.raw_ptr_.length = other.length ∧ ∀ j, j < other.length → a.raw_ptr_[j]? = other[j]? := by
  obtain ⟨a, e, hl, hj, _⟩ :=
    copy_block_ok ⟨other⟩ (ArrayPtr.alloc other.length : ArrayPtr α) other.length
      (Nat.le_refl _) (by rw [alloc_length])
  rw [alloc_length] at hl
  exact ⟨a, by simp [ofInitList, e, bind, Except.bind, pure, Except.pure], hl, hj⟩

theorem ofReserve_spec [Elem α] (c : Nat) :
    ∃ a : ArrayPtr α, ofReserve (SimpleVec.Reserve c) = .ok ⟨a, 0, c⟩ ∧
      a.raw_ptr_.length = c := by
  obtain ⟨v', e, wf, hc, hs, _, _⟩ :=
    Reserve_spec (SimpleVector.empty : SimpleVector α) c ⟨Nat.le_refl 0, rfl⟩
  have hs' : v'.size_ = 0 := hs
  have hc' : v'.capacity_ = c := by
    rw [hc]
    show max 0 c = c
    omega
  refine ⟨v'.array_, ?_, by rw [wf.2, hc']⟩
  have hv : v' = ⟨v'.array_, 0, c⟩ := by
    cases v' with
    | mk a s k =>
      simp only at hs' hc'
      subst hs'
      subst hc'
      rfl
  simp only [ofReserve, SimpleVec.Reserve, ReserveProxyObj.GetCapacity, e, bind, Except.bind,
    pure, Except.pure, swap, ArrayPtr.swap]
  rw [hv]

theorem PushBack_copy_ok [Elem α] (v : SimpleVector α) (item : α) (h : v.WF) :
    ∃ v', v.PushBack_copy (.object item) = .ok v' := by
  obtain ⟨h1, h2⟩ := h
  by_cases hs : v.size_ = v.capacity_
  · obtain ⟨t, e, wf, hc, hsz, _, _⟩ :=
      Reserve_spec v (if v.capacity_ > 0 then v.capacity_ * 2 else 1) ⟨h1, h2⟩
    have hlt : t.size_ < t.array_.raw_ptr_.length := by
      rw [wf.2, hc, hsz]
      split_ifs <;> omega
    refine ⟨⟨⟨t.array_.raw_ptr_.set t.size_ item⟩, t.size_, t.capacity_⟩, ?_⟩
    simp only [PushBack_copy, if_pos hs, e, bind, Except.bind, pure, Except.pure]
    simp [Arg.read_released, Arg.read, ArrayPtr.set, hlt]
  · have hlt : v.size_ < v.array_.raw_ptr_.length := by omega
    refine ⟨⟨⟨v.array_.raw_ptr_.set v.size_ item⟩, v.size_, v.capacity_⟩, ?_⟩
    simp [PushBack_copy, hs, Arg.read, ArrayPtr.set, hlt, bind, Except.bind, pure,
      Except.pure]

theorem PushBack_copy_slot_full [Elem α] (v : SimpleVector α) (k : Nat) (h : v.WF)
    (hs : v.size_ = v.capacity_) : v.PushBack_copy (.slot k) = .error .dangling := by
  obtain ⟨t, e, _⟩ :=
    Reserve_spec v (if v.capacity_ > 0 then v.capacity_ * 2 else 1) h
  have hgt : (if v.capacity_ > 0 then v.capacity_ * 2 else 1) > v.capacity_ := by
    split_ifs <;> omega
  simp only [PushBack_copy, if_pos hs, e, bind, Except.bind, pure, Except.pure]
  simp [Arg.read_released, hgt]

theorem Resize_ok [Elem α] (v : SimpleVector α) (n : Nat) (h : v.WF) :
    ∃ v', v.Resize n = .ok v' := by
  by_cases h1 : n = v.size_
  · exact ⟨v, by simp [Resize, h1, pure, Except.pure]⟩
  · by_cases h2 : n < v.size_
    · obtain ⟨a, e, _⟩ := Resize_shrink_spec v n h h2
      exact ⟨_, e⟩
    · by_cases h3 : n ≤ v.capacity_
      · exact ⟨_, Resize_within_spec v n (by omega) h3⟩
      · obtain ⟨a, e, _⟩ := Resize_grow_spec v n h (by omega)
        exact ⟨_, e⟩

theorem PopBack_ok (v : SimpleVector α) (h : v.size_ ≠ 0) :
    v.PopBack = .ok ⟨v.array_, v.size_ - 1, v.capacity_⟩ := by
  simp [PopBack, IsEmpty, h, pure, Except.pure]

theorem sizeInv_iff (v : SimpleVector α) : v.SizeInv ↔ v.size_ ≤ v.capacity_ :=
  ⟨fun h => h.2, fun h => ⟨Nat.zero_le _, h⟩⟩

theorem live_of_WF (v : SimpleVector α) (h : v.WF) : v.Live := by
  have h1 := h.1
  have h2 := h.2
  show v.size_ ≤ v.array_.raw_ptr_.length
  omega

end SimpleVector

section CompareLemmas

open SimpleVector

variable {α : Type}

theorem beq_false_of_length_ne [BEq α] : ∀ (l1 l2 : List α), l1.length ≠ l2.length →
    (l1 == l2) = false
  | [], [] => fun h => absurd rfl h
  | [], _ :: _ => fun _ => rfl
  | _ :: _, [] => fun _ => rfl
  | x :: l1, y :: l2 => fun h => by
    have ih := beq_false_of_length_ne l1 l2 (by simpa using h)
    show (x == y && (l1 == l2)) = false
    rw [ih, Bool.and_false]

theorem beq_iff_pointwise [BEq α] : ∀ (l1 l2 : List α), (l1 == l2) = true ↔
    l1.length = l2.length ∧
      ∀ i, i < l1.length → ∃ x y, l1[i]? = some x ∧ l2[i]? = some y ∧ (x == y) = true
  | [], [] => by
    constructor
    · intro _
      exact ⟨rfl, fun i hi => absurd hi (Nat.not_lt_zero i)⟩
    · intro _
      rfl
  | [], y :: l2 => by
    constructor
    · intro h
      cases h
    · intro h
      cases h.1
  | x :: l1, [] => by
    constructor
    · intro h
      cases h
    · intro h
      cases h.1
  | x :: l1, y :: l2 => by
    have ih := beq_iff_pointwise l1 l2
    have hcons : ((x :: l1) == (y :: l2)) = (x == y && (l1 == l2)) := rfl
    rw [hcons, Bool.and_eq_true, ih]
    constructor
    · rintro ⟨hxy, hlen, hall⟩
      refine ⟨by simp [hlen], ?_⟩
      intro i hi
      cases i with
      | zero => exact ⟨x, y, by simp, by simp, hxy⟩
      | succ k =>
        obtain ⟨u, w, h1, h2, h3⟩ := hall k (by simpa using hi)
        exact ⟨u, w, by simpa using h1, by simpa using h2, h3⟩
    · rintro ⟨hlen, hall⟩
      refine ⟨?_, by simpa using hlen, ?_⟩
      · obtain ⟨u, w, h1, h2, h3⟩ := hall 0 (by simp)
        simp only [List.getElem?_cons_zero, Option.some.injEq] at h1 h2
        rw [h1, h2]
        exact h3
      · intro i hi
        obtain ⟨u, w, h1, h2, h3⟩ := hall (i + 1) (by simpa using hi)
        exact ⟨u, w, by simpa using h1, by simpa using h2, h3⟩

theorem drop_take_succ (l : List α) (f n : Nat) (h : f + (n + 1) ≤ l.length) :
    ∃ x, l[f]? = some x ∧ (l.drop f).take (n + 1) = x :: (l.drop (f + 1)).take n := by
  have hf : f < l.length := by omega
  refine ⟨l[f], by simp [hf], ?_⟩
  rw [List.drop_eq_getElem_cons hf, List.take_succ_cons]

theorem equalLoop_ok [BEq α] (n : Nat) : ∀ (a b : ArrayPtr α) (first1 first2 : Nat),
    first1 + n ≤ a.raw_ptr_.length → first2 + n ≤ b.raw_ptr_.length →
    equalLoop a b first1 first2 n =
      .ok ((a.raw_ptr_.drop first1).take n == (b.raw_ptr_.drop first2).take n) := by
  induction n with
  | zero =>
    intro a b first1 first2 _ _
    simp only [List.take_zero]
    rfl
  | succ n ih =>
    intro a b first1 first2 h1 h2
    obtain ⟨x, hx, ex⟩ := drop_take_succ a.raw_ptr_ first1 n h1
    obtain ⟨y, hy, ey⟩ := drop_take_succ b.raw_ptr_ first2 n h2
    rw [ex, ey]
    have hcons : ((x :: (a.raw_ptr_.drop (first1 + 1)).take n) ==
        (y :: (b.raw_ptr_.drop (first2 + 1)).take n)) =
        (x == y && ((a.raw_ptr_.drop (first1 + 1)).take n ==
          (b.raw_ptr_.drop (first2 + 1)).take n)) := rfl
    rw [hcons]
    have ih' := ih a b (first1 + 1) (first2 + 1) (by omega) (by omega)
    cases hxy : (x == y) <;>
      simp [equalLoop, ArrayPtr.get, hx, hy, hxy, ih', bind, Except.bind, pure, Except.pure]

theorem toList_length_of_live (v : SimpleVector α) (h : v.Live) :
    v.toList.length = v.size_ := by
  have : v.size_ ≤ v.array_.raw_ptr_.length := h
  simp [toList, this]

theorem operator_eq_ok [BEq α] (a b : SimpleVector α) (ha : a.Live) (hb : b.Live) :
    operator_eq a b = .ok (a.toList == b.toList) := by
  have ha' : a.size_ ≤ a.array_.raw_ptr_.length := ha
  have hb' : b.size_ ≤ b.array_.raw_ptr_.length := hb
  by_cases hs : a.size_ = b.size_
  · have e := equalLoop_ok a.size_ a.array_ b.array_ 0 0 (by omega) (by omega)
    simp only [List.drop_zero] at e
    have : (b.toList) = b.array_.raw_ptr_.take a.size_ := by rw [hs]; rfl
    rw [this]
    simp [operator_eq, GetSize, hs, std_equal, toList]
    rw [← hs]
    simpa using e
  · have hne : (a.toList == b.toList) = false :=
      beq_false_of_length_ne _ _ (by
        rw [toList_length_of_live a ha, toList_length_of_live b hb]; exact hs)
    rw [hne]
    simp [operator_eq, GetSize, hs, pure, Except.pure]

theorem lexLoop_ok [LinearOrder α] (n1 : Nat) :
    ∀ (n2 : Nat) (a b : ArrayPtr α) (first1 first2 : Nat),
    first1 + n1 ≤ a.raw_ptr_.length → first2 + n2 ≤ b.raw_ptr_.length →
    ∃ r, lexLoop a b first1 first2 n1 n2 = .ok r ∧
      (r = true ↔ List.Lex (fun x y : α => x < y) ((a.raw_ptr_.drop first1).take n1)
        ((b.raw_ptr_.drop first2).take n2)) := by
  induction n1 with
  | zero =>
    intro n2 a b first1 first2 _ h2
    cases n2 with
    | zero =>
      refine ⟨false, rfl, ?_⟩
      simp
    | succ m =>
      obtain ⟨y, _, ey⟩ := drop_take_succ b.raw_ptr_ first2 m h2
      refine ⟨true, rfl, ?_⟩
      rw [ey, List.take_zero]
      exact ⟨fun _ => List.Lex.nil, fun _ => rfl⟩
  | succ n ih =>
    intro n2 a b first1 first2 h1 h2
    cases n2 with
    | zero =>
      refine ⟨false, rfl, ?_⟩
      simp
    | succ m =>
      obtain ⟨x, hx, ex⟩ := drop_take_succ a.raw_ptr_ first1 n h1
      obtain ⟨y, hy, ey⟩ := drop_take_succ b.raw_ptr_ first2 m h2
      rw [ex, ey]
      by_cases hxy : x < y
      · refine ⟨true, ?_, ?_⟩
        · simp [lexLoop, ArrayPtr.get, hx, hy, hxy, bind, Except.bind, pure, Except.pure]
        · exact ⟨fun _ => List.Lex.rel hxy, fun _ => rfl⟩
      · by_cases hyx : y < x
        · refine ⟨false, ?_, ?_⟩
          · simp [lexLoop, ArrayPtr.get, hx, hy, hxy, hyx, bind, Except.bind, pure,
              Except.pure]
          · constructor
            · intro hf
              cases hf
            · intro hl
              cases hl with
              | cons _ => exact absurd hyx (lt_irrefl _)
              | rel hr => exact absurd hr hxy
        · have hEq : x = y := le_antisymm (not_lt.1 hyx) (not_lt.1 hxy)
          subst hEq
          obtain ⟨r, er, hr⟩ := ih m a b (first1 + 1) (first2 + 1) (by omega) (by omega)
          refine ⟨r, ?_, ?_⟩
          · simp [lexLoop, ArrayPtr.get, hx, hy, er, bind, Except.bind]
          · rw [hr, List.Lex.cons_iff]

theorem operator_lt_ok [LinearOrder α] (a b : SimpleVector α) (ha : a.Live) (hb : b.Live) :
    ∃ r, operator_lt a b = .ok r ∧
      (r = true ↔ List.Lex (fun x y : α => x < y) a.toList b.toList) := by
  have ha' : a.size_ ≤ a.array_.raw_ptr_.length := ha
  have hb' : b.size_ ≤ b.array_.raw_ptr_.length := hb
  obtain ⟨r, er, hr⟩ := lexLoop_ok a.size_ b.size_ a.array_ b.array_ 0 0 (by omega) (by omega)
  simp only [List.drop_zero] at hr
  exact ⟨r, by simp [operator_lt, std_lexicographical_compare, er], hr⟩

theorem lex_append_cons [LinearOrder α] : ∀ (l : List α) (x : α) (rest : List α),
    List.Lex (fun x y : α => x < y) l (l ++ x :: rest)
  | [], _, _ => List.Lex.nil
  | _ :: l, x, rest => List.Lex.cons (lex_append_cons l x rest)

end CompareLemmas

section Claims

open SimpleVector

variable {α : Type}

/-- C1, evaluated on the code: `PushBack(const Type&)` called with an object of
value `7` on the default-constructed vector reserves one slot and stores `7` in slot `0`, but
returns with `size_` still `0`; the overload has no `++size_`, so `GetSize()` is
not increased and index `0` is not a live element. -/
theorem C1_PushBack_copy_leaves_size :
    (SimpleVector.empty : SimpleVector Nat).WF ∧
    (SimpleVector.empty : SimpleVector Nat).PushBack_copy (.object 7) = .ok ⟨⟨[7]⟩, 0, 1⟩ ∧
    GetSize (⟨⟨[7]⟩, 0, 1⟩ : SimpleVector Nat) = GetSize (SimpleVector.empty : SimpleVector Nat) ∧
    At (⟨⟨[7]⟩, 0, 1⟩ : SimpleVector Nat) 0 = .error .outOfRange := by
  refine ⟨⟨Nat.le_refl 0, rfl⟩, rfl, rfl, rfl⟩

/-- C2: for every list `items` of `k` values, `k` calls of `PushBack(Type&&)` on the
default-constructed vector return normally with `GetSize() = k`, live elements
exactly `items` in order, `GetCapacity() = 0` when `k = 0` and otherwise the
smallest power of two that is at least `k`, and `GetSize() ≤ GetCapacity()`. -/
theorem C2_PushBack_doubling [Elem α] (items : List α) :
    ∃ v, pushAll (SimpleVector.empty : SimpleVector α) items = .ok v ∧
      v.GetSize = items.length ∧ v.toList = items ∧
      v.GetCapacity = (if items.length = 0 then 0 else 2 ^ Nat.clog 2 items.length) ∧
      (items.length ≠ 0 → (∃ e, v.GetCapacity = 2 ^ e) ∧ items.length ≤ v.GetCapacity ∧
        ∀ m, items.length ≤ 2 ^ m → v.GetCapacity ≤ 2 ^ m) ∧
      v.GetSize ≤ v.GetCapacity := by
  obtain ⟨v, e, wf, hs, hl, hd⟩ :=
    pushAll_spec items (SimpleVector.empty : SimpleVector α) ⟨Nat.le_refl 0, rfl⟩
      (Or.inl ⟨rfl, rfl⟩)
  have hs' : v.size_ = items.length := by rw [hs]; simp [SimpleVector.empty]
  have hmin : items.length ≠ 0 → (∃ e, v.capacity_ = 2 ^ e) ∧ items.length ≤ v.capacity_ ∧
      ∀ m, items.length ≤ 2 ^ m → v.capacity_ ≤ 2 ^ m := by
    intro hk
    rcases hd with ⟨z, _⟩ | ⟨e, he, hlt⟩
    · omega
    · refine ⟨⟨e, he⟩, by have := wf.1; omega, ?_⟩
      intro m hm
      rw [he]
      by_contra hcon
      have hme : m < e := by
        by_contra h2
        exact hcon (Nat.pow_le_pow_right (by decide) (by omega))
      have h3 : 2 ^ (m + 1) ≤ 2 ^ e := Nat.pow_le_pow_right (by decide) hme
      rw [pow_succ] at h3
      omega
  refine ⟨v, e, hs', ?_, ?_, hmin, wf.1⟩
  · rw [hl]; simp [toList, SimpleVector.empty, ArrayPtr.null]
  · by_cases hk : items.length = 0
    · rw [if_pos hk]
      rcases hd with ⟨_, z⟩ | ⟨e, _, hlt⟩
      · exact z
      · omega
    · rw [if_neg hk]
      obtain ⟨⟨e, he⟩, hle, hall⟩ := hmin hk
      have h1 : Nat.clog 2 items.length ≤ e :=
        (Nat.le_pow_iff_clog_le (by decide)).1 (by rw [← he]; exact hle)
      have h2 : v.capacity_ ≤ 2 ^ Nat.clog 2 items.length :=
        hall _ (Nat.le_pow_clog (by decide) _)
      have h3 : 2 ^ Nat.clog 2 items.length ≤ 2 ^ e := Nat.pow_le_pow_right (by decide) h1
      show v.capacity_ = _
      omega

/-- C3, refuted as stated: slot 1 of `[1, 2, 3]` (capacity 4) holds 2, and `Insert` at
position 0 with slot 1 itself as the argument shifts the block to `[1, 1, 2, 3]`
before it reads the argument, so either overload inserts 1 and the live sequence
is `[1, 1, 2, 3]`, not the value 2 followed by `[1, 2, 3]`. -/
theorem C3_aliased_argument_counterexample :
    v123.WF ∧ 0 ≤ v123.GetSize ∧ v123.At 1 = .ok 2 ∧
    v123.Insert_copy 0 (.slot 1) = .ok (⟨⟨[1, 1, 2, 3]⟩, 4, 4⟩, 0) ∧
    v123.Insert 0 (.slot 1) = .ok (⟨⟨[1, 1, 2, 3]⟩, 4, 4⟩, 0) ∧
    (⟨⟨[1, 1, 2, 3]⟩, 4, 4⟩ : SimpleVector Nat).toList = [1, 1, 2, 3] ∧
    (⟨⟨[1, 1, 2, 3]⟩, 4, 4⟩ : SimpleVector Nat).toList ≠
      v123.toList.take 0 ++ [2] ++ v123.toList.drop 0 :=
  ⟨⟨by decide, rfl⟩, by decide, rfl, rfl, rfl, rfl, by decide⟩

/-- C3, amended: for a well-formed vector, a position `i ≤ size` and a value held in
an object that is not a slot of the vector itself, both `Insert` overloads return
normally with the cursor `i`; the live sequence becomes the first `i` old elements,
then the value, then the remaining old elements; the size grows by exactly one; the
capacity becomes `max(1, 2 * capacity)` when the vector was full and is unchanged
otherwise; the cursor designates the inserted element. -/
theorem C3_Insert [Elem α] (v : SimpleVector α) (i : Nat) (value : α) (h : v.WF)
    (hi : i ≤ v.GetSize) :
    (∃ v', v.Insert_copy i (.object value) = .ok (v', i) ∧
      v'.toList = v.toList.take i ++ [value] ++ v.toList.drop i ∧
      v'.GetSize = v.GetSize + 1 ∧
      v'.GetCapacity =
        (if v.GetSize = v.GetCapacity then max 1 (2 * v.GetCapacity) else v.GetCapacity) ∧
      v'.At i = .ok value) ∧
    (∃ v', v.Insert i (.object value) = .ok (v', i) ∧
      v'.toList = v.toList.take i ++ [value] ++ v.toList.drop i ∧
      v'.GetSize = v.GetSize + 1 ∧
      v'.GetCapacity =
        (if v.GetSize = v.GetCapacity then max 1 (2 * v.GetCapacity) else v.GetCapacity) ∧
      v'.At i = .ok value) := by
  have hlen : i ≤ v.toList.length := by rw [toList_length v h]; exact hi
  have hat : ∀ v' : SimpleVector α,
      v'.toList = v.toList.take i ++ [value] ++ v.toList.drop i → v'.At i = .ok value := by
    intro v' hl
    apply At_of_toList
    rw [hl, getElem?_take_cons_drop _ _ _ hlen, if_neg (Nat.lt_irrefl i), if_pos rfl]
  constructor
  · obtain ⟨v', e, _, hs, hc, hl⟩ := Insert_copy_spec v i value h hi
    exact ⟨v', e, hl, hs, hc, hat v' hl⟩
  · obtain ⟨v', e, _, hs, hc, hl⟩ := Insert_spec v i value h hi
    exact ⟨v', e, hl, hs, hc, hat v' hl⟩

/-- C4: for a well-formed vector and a position `i < size`, `Erase` returns
normally with the cursor `i`; the live sequence is the old one with the element at
index `i` removed; the size drops by exactly one; the capacity is unchanged; and
when the erased element was the last one the cursor is `end()`. -/
theorem C4_Erase [Elem α] (v : SimpleVector α) (i : Nat) (h : v.WF) (hi : i < v.GetSize) :
    ∃ v', v.Erase i = .ok (v', i) ∧
      v'.toList = v.toList.eraseIdx i ∧
      v'.GetSize + 1 = v.GetSize ∧
      v'.GetCapacity = v.GetCapacity ∧
      (i + 1 = v.GetSize → i = v'.GetSize) := by
  obtain ⟨v', e, _, hs, hc, hl⟩ := Erase_spec v i h hi
  have hi' : i < v.size_ := hi
  refine ⟨v', e, hl, ?_, hc, ?_⟩
  · show v'.size_ + 1 = v.size_
    omega
  · intro hlast
    show i = v'.size_
    have : i + 1 = v.size_ := hlast
    omega

/-- C5: for a well-formed vector, a position `i ≤ size` and a value, `Insert` at
`i` (either overload) followed by `Erase` at the returned cursor `i` returns
normally with the original size and the original live sequence; the capacity is
at least the original one.  For the copy overload this also holds when the argument
is a slot of the block of the vector itself. -/
theorem C5_Insert_then_Erase [Elem α] (v : SimpleVector α) (i : Nat) (value : α)
    (h : v.WF) (hi : i ≤ v.GetSize) :
    (∃ v1 v2, v.Insert_copy i (.object value) = .ok (v1, i) ∧ v1.Erase i = .ok (v2, i) ∧
      v2.GetSize = v.GetSize ∧ v2.toList = v.toList ∧ v.GetCapacity ≤ v2.GetCapacity) ∧
    (∃ v1 v2, v.Insert i (.object value) = .ok (v1, i) ∧ v1.Erase i = .ok (v2, i) ∧
      v2.GetSize = v.GetSize ∧ v2.toList = v.toList ∧ v.GetCapacity ≤ v2.GetCapacity) ∧
    (∀ k, k < v.GetCapacity →
      ∃ v1 v2, v.Insert_copy i (.slot k) = .ok (v1, i) ∧ v1.Erase i = .ok (v2, i) ∧
        v2.GetSize = v.GetSize ∧ v2.toList = v.toList ∧ v.GetCapacity ≤ v2.GetCapacity) := by
  have hlen : i ≤ v.toList.length := by rw [toList_length v h]; exact hi
  have hi' : i ≤ v.size_ := hi
  have key : ∀ (x : α) (v1 : SimpleVector α), v1.WF → v1.size_ = v.size_ + 1 →
      v1.capacity_ =
        (if v.size_ = v.capacity_ then max 1 (2 * v.capacity_) else v.capacity_) →
      v1.toList = v.toList.take i ++ [x] ++ v.toList.drop i →
      ∃ v2, v1.Erase i = .ok (v2, i) ∧ v2.GetSize = v.GetSize ∧ v2.toList = v.toList ∧
        v.GetCapacity ≤ v2.GetCapacity := by
    intro x v1 wf1 hs1 hc1 hl1
    obtain ⟨v2, e2, _, hs2, hc2, hl2⟩ := Erase_spec v1 i wf1 (by omega)
    refine ⟨v2, e2, ?_, ?_, ?_⟩
    · show v2.size_ = v.size_
      omega
    · rw [hl2, hl1, eraseIdx_take_cons_drop _ _ _ hlen]
    · show v.capacity_ ≤ v2.capacity_
      rw [hc2, hc1]
      split_ifs <;> omega
  refine ⟨?_, ?_, ?_⟩
  · obtain ⟨v1, e1, wf1, hs1, hc1, hl1⟩ := Insert_copy_spec v i value h hi
    obtain ⟨v2, e2, r⟩ := key value v1 wf1 hs1 hc1 hl1
    exact ⟨v1, v2, e1, e2, r⟩
  · obtain ⟨v1, e1, wf1, hs1, hc1, hl1⟩ := Insert_spec v i value h hi
    obtain ⟨v2, e2, r⟩ := key value v1 wf1 hs1 hc1 hl1
    exact ⟨v1, v2, e1, e2, r⟩
  · intro k hk
    obtain ⟨v1, x, e1, wf1, hs1, hc1, hl1, _⟩ := Insert_copy_slot_spec v i k h hi hk
    obtain ⟨v2, e2, r⟩ := key x v1 wf1 hs1 hc1 hl1
    exact ⟨v1, v2, e1, e2, r⟩

/-- Witness for C2 at the values 1, 2, 3: three pushes give size 3, live elements
`[1, 2, 3]` and capacity 4. -/
theorem C2_PushBack_doubling_witness :
    ∃ v, pushAll (SimpleVector.empty : SimpleVector Nat) [1, 2, 3] = .ok v ∧
      v.GetSize = 3 ∧ v.toList = [1, 2, 3] ∧ v.GetCapacity = 4 := by
  obtain ⟨v, e, hs, hl, _, hmin, _⟩ := C2_PushBack_doubling ([1, 2, 3] : List Nat)
  have e0 : pushAll (SimpleVector.empty : SimpleVector Nat) [1, 2, 3] = .ok v123 := rfl
  rw [e0] at e
  injection e with e
  subst e
  exact ⟨v123, rfl, hs, hl, rfl⟩

/-- Witness for C3: inserting 99 at index 1 of `[1, 2, 3]` gives `[1, 99, 2, 3]`,
size 4, with either overload. -/
theorem C3_Insert_witness :
    v123.WF ∧ 1 ≤ v123.GetSize ∧
    (∃ v', v123.Insert_copy 1 (.object 99) = .ok (v', 1) ∧ v'.toList = [1, 99, 2, 3] ∧
      v'.GetSize = 4 ∧ v'.GetCapacity = 4 ∧ v'.At 1 = .ok 99) ∧
    (∃ v', v123.Insert 1 (.object 99) = .ok (v', 1) ∧ v'.toList = [1, 99, 2, 3] ∧
      v'.GetSize = 4 ∧ v'.GetCapacity = 4 ∧ v'.At 1 = .ok 99) := by
  have hwf : v123.WF := ⟨by decide, rfl⟩
  have hi : 1 ≤ v123.GetSize := by decide
  obtain ⟨⟨a, ea, la, sa, ca, ta⟩, ⟨b, eb, lb, sb, cb, tb⟩⟩ := C3_Insert v123 1 99 hwf hi
  exact ⟨hwf, hi, ⟨a, ea, la, sa, ca, ta⟩, ⟨b, eb, lb, sb, cb, tb⟩⟩

/-- Witness for C4: erasing index 1 of `[1, 2, 3]` gives `[1, 3]`, size 2, capacity
still 4. -/
theorem C4_Erase_witness :
    v123.WF ∧ 1 < v123.GetSize ∧
    ∃ v', v123.Erase 1 = .ok (v', 1) ∧ v'.toList = [1, 3] ∧ v'.GetSize + 1 = 3 ∧
      v'.GetCapacity = 4 := by
  have hwf : v123.WF := ⟨by decide, rfl⟩
  have hi : 1 < v123.GetSize := by decide
  obtain ⟨a, ea, la, sa, ca, _⟩ := C4_Erase v123 1 hwf hi
  exact ⟨hwf, hi, a, ea, la, sa, ca⟩

/-- Witness for C5: on `[1, 2, 3]`, inserting 99 at index 1 and erasing index 1
gives `[1, 2, 3]` again, size 3; so does inserting slot 2 of the vector itself at
index 1 with the copy overload and erasing index 1. -/
theorem C5_Insert_then_Erase_witness :
    v123.WF ∧ 1 ≤ v123.GetSize ∧
    (∃ v1 v2, v123.Insert_copy 1 (.object 99) = .ok (v1, 1) ∧ v1.Erase 1 = .ok (v2, 1) ∧
      v2.GetSize = 3 ∧ v2.toList = [1, 2, 3]) ∧
    (∃ v1 v2, v123.Insert 1 (.object 99) = .ok (v1, 1) ∧ v1.Erase 1 = .ok (v2, 1) ∧
      v2.GetSize = 3 ∧ v2.toList = [1, 2, 3]) ∧
    (∃ v1 v2, v123.Insert_copy 1 (.slot 2) = .ok (v1, 1) ∧ v1.Erase 1 = .ok (v2, 1) ∧
      v2.GetSize = 3 ∧ v2.toList = [1, 2, 3]) := by
  have hwf : v123.WF := ⟨by decide, rfl⟩
  have hi : 1 ≤ v123.GetSize := by decide
  obtain ⟨⟨a1, a2, ea1, ea2, sa, la, _⟩, ⟨b1, b2, eb1, eb2, sb, lb, _⟩, hslot⟩ :=
    C5_Insert_then_Erase v123 1 99 hwf hi
  obtain ⟨c1, c2, ec1, ec2, sc, lc, _⟩ := hslot 2 (by decide)
  exact ⟨hwf, hi, ⟨a1, a2, ea1, ea2, sa, la⟩, ⟨b1, b2, eb1, eb2, sb, lb⟩,
    ⟨c1, c2, ec1, ec2, sc, lc⟩⟩

/-- C6: for every vector and index, `At` signals the out-of-range error exactly
when `index ≥ size`; when `index < size` (and `size ≤ capacity`, the invariant of
the class) it returns what the unchecked `operator[]` returns, and on a well-formed
vector both return an element. -/
theorem C6_At (v : SimpleVector α) (i : Nat) :
    (v.At i = .error .outOfRange ↔ v.GetSize ≤ i) ∧
    (i < v.GetSize → v.GetSize ≤ v.GetCapacity →
      v.At i ≠ .error .outOfRange ∧ v.At i = v.index i) ∧
    (i < v.GetSize → v.WF → ∃ x, v.At i = .ok x ∧ v.index i = .ok x) := by
  have hne : ∀ j, v.array_.get j ≠ .error .outOfRange := by
    intro j
    unfold ArrayPtr.get
    split <;> simp
  have hiff : v.At i = .error .outOfRange ↔ v.GetSize ≤ i := by
    constructor
    · intro hat
      by_contra hlt
      have c1 : ¬ i ≥ v.size_ := hlt
      simp only [At, c1, if_false] at hat
      exact hne i hat
    · intro hge
      have c1 : i ≥ v.size_ := hge
      simp [At, c1]
  refine ⟨hiff, ?_, ?_⟩
  · intro hlt hcap
    have c1 : ¬ i ≥ v.size_ := by
      have : i < v.size_ := hlt
      omega
    have c2 : i ≤ v.capacity_ := by
      have : i < v.size_ := hlt
      have : v.size_ ≤ v.capacity_ := hcap
      omega
    refine ⟨fun hat => ?_, ?_⟩
    · have := hiff.1 hat
      omega
    · simp [At, index, c1, c2]
  · intro hlt hwf
    obtain ⟨x, hx⟩ := slot_of_lt v i hwf hlt
    have c2 : i ≤ v.capacity_ := by
      have : i < v.size_ := hlt
      have := hwf.1
      omega
    refine ⟨x, At_of_slot v i x hlt hx, ?_⟩
    simp [index, c2, ArrayPtr.get, hx]

/-- Witness for C6 on `[1, 2, 3]`: `At(3)` signals out-of-range, `At(1)` does not and
agrees with `operator[](1)`, both returning 2. -/
theorem C6_At_witness :
    v123.At 3 = .error .outOfRange ∧ v123.At 1 ≠ .error .outOfRange ∧
    v123.At 1 = v123.index 1 ∧ ∃ x, v123.At 1 = .ok x ∧ v123.index 1 = .ok x := by
  have h3 := C6_At v123 3
  have h1 := C6_At v123 1
  exact ⟨h3.1.2 (by decide), (h1.2.1 (by decide) (by decide)).1,
    (h1.2.1 (by decide) (by decide)).2, h1.2.2 (by decide) ⟨by decide, rfl⟩⟩

/-- C7: for a well-formed vector and a requested capacity `c`, `Reserve(c)` returns
normally; the capacity becomes `max(capacity, c)`, that is exactly `c` when
`c > capacity` and the old capacity otherwise; the size is unchanged; and every
element at an index below the size is unchanged. -/
theorem C7_Reserve [Elem α] (v : SimpleVector α) (c : Nat) (h : v.WF) :
    ∃ v', v.Reserve c = .ok v' ∧
      v'.GetCapacity = max v.GetCapacity c ∧
      (c > v.GetCapacity → v'.GetCapacity = c) ∧
      (c ≤ v.GetCapacity → v'.GetCapacity = v.GetCapacity) ∧
      v'.GetSize = v.GetSize ∧
      (∀ i, i < v.GetSize → ∃ x, v.At i = .ok x ∧ v'.At i = .ok x) ∧
      v'.toList = v.toList := by
  obtain ⟨v', e, _, hc, hs, hj, _⟩ := Reserve_spec v c h
  refine ⟨v', e, hc, ?_, ?_, hs, ?_, toList_eq_of_slots v v' hs hj⟩
  · intro hgt
    show v'.capacity_ = c
    have : c > v.capacity_ := hgt
    omega
  · intro hle
    show v'.capacity_ = v.capacity_
    have : c ≤ v.capacity_ := hle
    omega
  · intro i hi
    obtain ⟨x, hx⟩ := slot_of_lt v i h hi
    exact ⟨x, At_of_slot v i x hi hx,
      At_of_slot v' i x (by rw [hs]; exact hi) (by rw [hj i hi]; exact hx)⟩

/-- Witness for C7: `Reserve(6)` on `[1, 2, 3]` with capacity 4 gives capacity 6,
size 3 and the same elements. -/
theorem C7_Reserve_witness :
    v123.WF ∧ ∃ v', v123.Reserve 6 = .ok v' ∧ v'.GetCapacity = 6 ∧ v'.GetSize = 3 ∧
      v'.toList = [1, 2, 3] := by
  have hwf : v123.WF := ⟨by decide, rfl⟩
  obtain ⟨v', e, hc, _, _, hs, _, hl⟩ := C7_Reserve v123 6 hwf
  exact ⟨hwf, v', e, hc, hs, hl⟩

/-- C8, evaluated on the code: after `PushBack` of 1, 2, 3 and `PopBack()` the
vector is well formed with size 2 and capacity 4, and slot 2 still holds 3;
`Resize(3)` then only sets `size_` to 3, so the element at index 2 is the stale 3
and not the default value 0.  In general `Resize(n)` with `size < n ≤ capacity`
changes nothing but `size_`. -/
theorem C8_Resize_within_capacity_exposes_stale :
    (∃ v1 v2 v3, pushAll (SimpleVector.empty : SimpleVector Nat) [1, 2, 3] = .ok v1 ∧
      v1.PopBack = .ok v2 ∧ v2.WF ∧ v2.GetSize = 2 ∧ v2.GetCapacity = 4 ∧
      v2.Resize 3 = .ok v3 ∧ v3.GetSize = 3 ∧ v3.At 2 = .ok 3 ∧
      v3.At 2 ≠ .ok (Elem.dflt : Nat)) ∧
    (∀ (v : SimpleVector Nat) (n : Nat), v.GetSize < n → n ≤ v.GetCapacity →
      v.Resize n = .ok ⟨v.array_, n, v.capacity_⟩) := by
  refine ⟨⟨v123, ⟨⟨[1, 2, 3, 1003]⟩, 2, 4⟩, ⟨⟨[1, 2, 3, 1003]⟩, 3, 4⟩, rfl, rfl,
    ⟨by decide, rfl⟩, rfl, rfl, rfl, rfl, rfl,
    fun hx => absurd (Except.ok.inj hx : (3 : Nat) = 0) (by decide)⟩, ?_⟩
  intro v n h1 h2
  exact Resize_within_spec v n h1 h2

/-- C9: for a well-formed vector of size `s` and `n < s`, `n < m ≤ s`, `Resize(n)`
followed by `Resize(m)` returns normally with size `m`; the elements at indices
below `n` are the original ones; and every element at an index in `[n, m)` is the
default value. -/
theorem C9_Resize_shrink_then_grow [Elem α] (v : SimpleVector α) (n m : Nat) (h : v.WF)
    (hn : n < v.GetSize) (hnm : n < m) (hm : m ≤ v.GetSize) :
    ∃ v1 v2, v.Resize n = .ok v1 ∧ v1.Resize m = .ok v2 ∧
      v2.GetSize = m ∧
      (∀ i, i < n → ∃ x, v.At i = .ok x ∧ v2.At i = .ok x) ∧
      (∀ i, n ≤ i → i < m → v2.At i = .ok Elem.dflt) := by
  have hn' : n < v.size_ := hn
  have hm' : m ≤ v.size_ := hm
  have hcap := h.1
  obtain ⟨a, e1, hl, hj⟩ := Resize_shrink_spec v n h hn
  have e2 : (⟨a, n, v.capacity_⟩ : SimpleVector α).Resize m = .ok ⟨a, m, v.capacity_⟩ :=
    Resize_within_spec ⟨a, n, v.capacity_⟩ m hnm (by simp only; omega)
  refine ⟨⟨a, n, v.capacity_⟩, ⟨a, m, v.capacity_⟩, e1, e2, rfl, ?_, ?_⟩
  · intro i hi
    obtain ⟨x, hx⟩ := slot_of_lt v i h (by omega)
    refine ⟨x, At_of_slot v i x (by omega) hx, At_of_slot _ i x (by simp only; omega) ?_⟩
    show a.raw_ptr_[i]? = some x
    rw [hj i, if_neg (by omega)]
    exact hx
  · intro i hi1 hi2
    apply At_of_slot _ i _ (by simp only; omega)
    show a.raw_ptr_[i]? = some Elem.dflt
    rw [hj i, if_pos ⟨hi1, by omega⟩]

/-- Witness for C9: on `[1, 2, 3]`, `Resize(1)` then `Resize(3)` gives size 3 with
element 0 still 1 and elements 1 and 2 equal to the default value 0. -/
theorem C9_Resize_shrink_then_grow_witness :
    v123.WF ∧ 1 < v123.GetSize ∧ 1 < 3 ∧ 3 ≤ v123.GetSize ∧
    ∃ v1 v2, v123.Resize 1 = .ok v1 ∧ v1.Resize 3 = .ok v2 ∧ v2.GetSize = 3 ∧
      v2.At 1 = .ok 0 ∧ v2.At 2 = .ok 0 ∧ ∃ x, v123.At 0 = .ok x ∧ v2.At 0 = .ok x := by
  have hwf : v123.WF := ⟨by decide, rfl⟩
  obtain ⟨v1, v2, e1, e2, hs, hlow, hdef⟩ :=
    C9_Resize_shrink_then_grow v123 1 3 hwf (by decide) (by decide) (by decide)
  exact ⟨hwf, by decide, by decide, by decide, v1, v2, e1, e2, hs,
    hdef 1 (by decide) (by decide), hdef 2 (by decide) (by decide), hlow 0 (by decide)⟩

/-- C10: for a well-formed vector and `newSize > capacity`, `Resize(newSize)` returns
normally; the capacity becomes `max(newSize, 2 * capacity)`; the size becomes
`newSize`; the elements at indices below the old size are the original ones; and
every element at an index in `[old size, newSize)` is the default value. -/
theorem C10_Resize_beyond_capacity [Elem α] (v : SimpleVector α) (newSize : Nat) (h : v.WF)
    (hn : newSize > v.GetCapacity) :
    ∃ v', v.Resize newSize = .ok v' ∧
      v'.GetCapacity = max newSize (2 * v.GetCapacity) ∧
      v'.GetSize = newSize ∧
      (∀ i, i < v.GetSize → ∃ x, v.At i = .ok x ∧ v'.At i = .ok x) ∧
      (∀ i, v.GetSize ≤ i → i < newSize → v'.At i = .ok Elem.dflt) := by
  have hn' : newSize > v.capacity_ := hn
  have hcap := h.1
  obtain ⟨a, e, _, hlow, hdef⟩ := Resize_grow_spec v newSize h hn
  refine ⟨⟨a, newSize, max newSize (2 * v.capacity_)⟩, e, rfl, rfl, ?_, ?_⟩
  · intro i hi
    have hi' : i < v.size_ := hi
    obtain ⟨x, hx⟩ := slot_of_lt v i h hi
    refine ⟨x, At_of_slot v i x hi hx, At_of_slot _ i x (by simp only; omega) ?_⟩
    show a.raw_ptr_[i]? = some x
    rw [hlow i hi]
    exact hx
  · intro i hi1 hi2
    exact At_of_slot _ i _ hi2 (hdef i hi1 hi2)

/-- Witness for C10: `Resize(6)` on `[1, 2, 3]` with capacity 4 gives capacity 8,
size 6, element 2 still 3 and element 5 equal to the default value 0. -/
theorem C10_Resize_beyond_capacity_witness :
    v123.WF ∧ 6 > v123.GetCapacity ∧
    ∃ v', v123.Resize 6 = .ok v' ∧ v'.GetCapacity = 8 ∧ v'.GetSize = 6 ∧
      v'.At 5 = .ok 0 ∧ ∃ x, v123.At 2 = .ok x ∧ v'.At 2 = .ok x := by
  have hwf : v123.WF := ⟨by decide, rfl⟩
  obtain ⟨v', e, hc, hs, hlow, hdef⟩ := C10_Resize_beyond_capacity v123 6 hwf (by decide)
  exact ⟨hwf, by decide, v', e, hc, hs, hdef 5 (by decide) (by decide), hlow 2 (by decide)⟩

/-- C11: for a well-formed source, the copy constructor returns normally; the copy
has the size of the source, the same live elements in the same order (so
`copy == source` is true), and `GetCapacity()` equal to the capacity of the source;
the source is left exactly as it was. -/
theorem C11_copy_constructor [Elem α] [DecidableEq α] (other : SimpleVector α)
    (h : other.WF) :
    ∃ v other', ofCopy other = .ok (v, other') ∧
      v.GetSize = other.GetSize ∧ v.toList = other.toList ∧
      operator_eq v other = .ok true ∧
      v.GetCapacity = other.GetCapacity ∧ other' = other := by
  have hlive := live_of_WF other h
  obtain ⟨a, e, hl, hj⟩ := ofCopy_spec other hlive
  have hlist : (⟨a, other.size_, other.capacity_⟩ : SimpleVector α).toList = other.toList :=
    toList_eq_of_slots other ⟨a, other.size_, other.capacity_⟩ rfl hj
  refine ⟨⟨a, other.size_, other.capacity_⟩, other, e, rfl, hlist, ?_, rfl, rfl⟩
  have hlive' : (⟨a, other.size_, other.capacity_⟩ : SimpleVector α).Live := by
    show other.size_ ≤ a.raw_ptr_.length
    omega
  rw [operator_eq_ok _ _ hlive' hlive, hlist]
  simp

/-- Witness for C11: copying `[1, 2, 3]` (capacity 4) gives size 3, live elements
`[1, 2, 3]`, `GetCapacity()` 4, and leaves the source as it was. -/
theorem C11_copy_constructor_witness :
    v123.WF ∧ ∃ v other', ofCopy v123 = .ok (v, other') ∧ v.GetSize = 3 ∧
      v.toList = [1, 2, 3] ∧ operator_eq v v123 = .ok true ∧ v.GetCapacity = 4 ∧
      other' = v123 := by
  have hwf : v123.WF := ⟨by decide, rfl⟩
  obtain ⟨v, o, e, hs, hl, hq, hc, ho⟩ := C11_copy_constructor v123 hwf
  exact ⟨hwf, v, o, e, hs, hl, hq, hc, ho⟩

/-- C12: for a well-formed source, the move constructor gives a destination with
the size, the capacity, the block and hence the live elements the source had, and
leaves the source with size 0, capacity 0 and no block; both are well formed. -/
theorem C12_move_constructor (other : SimpleVector α) (h : other.WF) :
    (ofMove other).1.GetSize = other.GetSize ∧
    (ofMove other).1.GetCapacity = other.GetCapacity ∧
    (ofMove other).1.toList = other.toList ∧
    (ofMove other).1.array_ = other.array_ ∧
    (ofMove other).2.GetSize = 0 ∧
    (ofMove other).2.GetCapacity = 0 ∧
    (ofMove other).2.array_ = ArrayPtr.null ∧
    (ofMove other).1.WF ∧ (ofMove other).2.WF :=
  ⟨rfl, rfl, rfl, rfl, rfl, rfl, rfl, h, ⟨Nat.le_refl 0, rfl⟩⟩

/-- Witness for C12: moving from `[1, 2, 3]` (capacity 4) gives a destination with
size 3, capacity 4, live elements `[1, 2, 3]` and a source with size 0, capacity 0. -/
theorem C12_move_constructor_witness :
    v123.WF ∧ (ofMove v123).1.GetSize = 3 ∧ (ofMove v123).1.GetCapacity = 4 ∧
    (ofMove v123).1.toList = [1, 2, 3] ∧ (ofMove v123).2.GetSize = 0 ∧
    (ofMove v123).2.GetCapacity = 0 := by
  have hwf : v123.WF := ⟨by decide, rfl⟩
  have h := C12_move_constructor v123 hwf
  exact ⟨hwf, h.1, h.2.1, h.2.2.1, h.2.2.2.2.1, h.2.2.2.2.2.1⟩

/-- C13, evaluated on the code: move-assigning `[1, 2, 3]` (capacity 4) to a
default-constructed vector gives the destination the live elements `[1, 2, 3]` and
size 3, but the source is left as it was, with size 3 and capacity 4: the body of
`operator=(SimpleVector&&)` is the body of the copy assignment and never writes to
`rhs`.  In general a normal return of the move assignment leaves `rhs` unchanged. -/
theorem C13_move_assignment_keeps_source :
    (∃ dst src, assign_move (SimpleVector.empty : SimpleVector Nat) v123 false = .ok (dst, src) ∧
      dst.toList = [1, 2, 3] ∧ dst.GetSize = 3 ∧
      src.GetSize = 3 ∧ src.GetCapacity = 4 ∧ src = v123) ∧
    (∀ (v rhs : SimpleVector Nat) (s : Bool), rhs.Live →
      ∃ dst, assign_move v rhs s = .ok (dst, rhs)) := by
  refine ⟨⟨⟨⟨[1, 2, 3]⟩, 3, 4⟩, v123, rfl, rfl, rfl, rfl, rfl, rfl⟩, ?_⟩
  intro v rhs s hlive
  cases s with
  | true => exact ⟨v, rfl⟩
  | false =>
    by_cases hz : rhs.size_ = 0
    · exact ⟨v.Clear, ((assign_body_ok v rhs hlive).1 hz).2⟩
    · obtain ⟨a, _, e, _⟩ := (assign_body_ok v rhs hlive).2 hz
      exact ⟨_, e⟩

/-- C14: for two vectors whose live ranges lie inside their blocks, `a == b` returns
normally; it is true exactly when the sizes are equal and the elements at every
index below the size compare equal; it is the same for any two vectors with the same
live sequences, whatever their capacities and the content of their slots from
`size` on; and `a != b` is its negation. -/
theorem C14_equality [BEq α] (a b : SimpleVector α) (ha : a.Live) (hb : b.Live) :
    ∃ r, operator_eq a b = .ok r ∧
      (r = true ↔ a.GetSize = b.GetSize ∧
        ∀ i, i < a.GetSize → ∃ x y, a.At i = .ok x ∧ b.At i = .ok y ∧ (x == y) = true) ∧
      (∀ a' b' : SimpleVector α, a'.Live → b'.Live → a'.toList = a.toList →
        b'.toList = b.toList → operator_eq a' b' = .ok r) ∧
      operator_ne a b = .ok (!r) := by
  have e := operator_eq_ok a b ha hb
  refine ⟨a.toList == b.toList, e, ?_, ?_, ?_⟩
  · rw [beq_iff_pointwise, toList_length_of_live a ha, toList_length_of_live b hb]
    constructor
    · rintro ⟨hs, hall⟩
      refine ⟨hs, ?_⟩
      intro i hi
      obtain ⟨x, y, hx, hy, hxy⟩ := hall i hi
      exact ⟨x, y, At_of_toList a i x hx, At_of_toList b i y hy, hxy⟩
    · rintro ⟨hs, hall⟩
      refine ⟨hs, ?_⟩
      intro i hi
      have hs' : a.size_ = b.size_ := hs
      have hi' : i < a.size_ := hi
      obtain ⟨x, y, hx, hy, hxy⟩ := hall i hi
      obtain ⟨x', hx'⟩ := get_of_lt a.array_ i (by have : a.size_ ≤ _ := ha; omega)
      obtain ⟨y', hy'⟩ := get_of_lt b.array_ i (by have : b.size_ ≤ _ := hb; omega)
      have ex : a.At i = .ok x' := At_of_slot a i x' hi' hx'.1
      have ey : b.At i = .ok y' := At_of_slot b i y' (by omega) hy'.1
      have exx : x' = x := Except.ok.inj (ex.symm.trans hx)
      have eyy : y' = y := Except.ok.inj (ey.symm.trans hy)
      subst exx
      subst eyy
      refine ⟨x', y', ?_, ?_, hxy⟩
      · rw [toList_getElem?, if_pos hi']; exact hx'.1
      · rw [toList_getElem?, if_pos (by omega)]; exact hy'.1
  · intro a' b' ha' hb' hla hlb
    rw [operator_eq_ok a' b' ha' hb', hla, hlb]
  · simp [operator_ne, e, bind, Except.bind, pure, Except.pure]

/-- Witness for C14: `[1, 2, 3]` in a block of four slots equals `[1, 2, 3]` in a
block of three slots, and differs from `[1, 2, 4]`. -/
theorem C14_equality_witness :
    v123.Live ∧ v124.Live ∧
    operator_eq v123 (⟨⟨[1, 2, 3]⟩, 3, 3⟩ : SimpleVector Nat) = .ok true ∧
    (∃ r, operator_eq v123 v124 = .ok r ∧ operator_ne v123 v124 = .ok (!r)) := by
  have h3 : v123.Live := by
    show v123.size_ ≤ v123.array_.raw_ptr_.length
    decide
  have h4 : v124.Live := by
    show v124.size_ ≤ v124.array_.raw_ptr_.length
    decide
  have h5 : (⟨⟨[1, 2, 3]⟩, 3, 3⟩ : SimpleVector Nat).Live := Nat.le_refl 3
  obtain ⟨r, e, _, hind, _⟩ := C14_equality v123 v123 h3 h3
  obtain ⟨r', e', _, _, hne⟩ := C14_equality v123 v124 h3 h4
  have hr : r = true := by
    have e0 : operator_eq v123 v123 = .ok true := rfl
    rw [e0] at e
    cases e
    rfl
  subst hr
  exact ⟨h3, h4, hind v123 ⟨⟨[1, 2, 3]⟩, 3, 3⟩ h3 h5 rfl rfl, r', e', hne⟩

/-- C15: over a totally ordered element type, for two vectors whose live ranges lie
inside their blocks, all six comparisons return normally; `a < b` is true exactly
when the live sequence of `a` is lexicographically smaller than the one of `b`, in
particular when it is a proper prefix of it; `a <= b` is `a < b || a == b`; `a > b`
is `b < a`; and `a >= b` is `a > b || a == b`. -/
theorem C15_ordering [LinearOrder α] (a b : SimpleVector α) (ha : a.Live) (hb : b.Live) :
    ∃ rlt rgt req : Bool,
      operator_lt a b = .ok rlt ∧ operator_gt a b = .ok rgt ∧ operator_eq a b = .ok req ∧
      (rlt = true ↔ List.Lex (fun x y : α => x < y) a.toList b.toList) ∧
      (∀ x rest, b.toList = a.toList ++ x :: rest → rlt = true) ∧
      (req = true ↔ a.toList = b.toList) ∧
      operator_le a b = .ok (rlt || req) ∧
      operator_gt a b = operator_lt b a ∧
      operator_ge a b = .ok (rgt || req) := by
  obtain ⟨r1, e1, h1⟩ := operator_lt_ok a b ha hb
  obtain ⟨r2, e2, h2⟩ := operator_lt_ok b a hb ha
  have e3 := operator_eq_ok a b ha hb
  have h3 : (a.toList == b.toList) = true ↔ a.toList = b.toList := beq_iff_eq
  have tri := trichotomous_of (List.Lex (fun x y : α => x < y)) a.toList b.toList
  have asym : List.Lex (fun x y : α => x < y) a.toList b.toList →
      ¬ List.Lex (fun x y : α => x < y) b.toList a.toList := fun p q => asymm_of _ p q
  have irr1 : a.toList = b.toList → ¬ List.Lex (fun x y : α => x < y) a.toList b.toList := by
    intro he p
    rw [he] at p
    exact asymm_of _ p p
  have irr2 : a.toList = b.toList → ¬ List.Lex (fun x y : α => x < y) b.toList a.toList := by
    intro he p
    rw [he] at p
    exact asymm_of _ p p
  have egt : operator_gt a b = operator_lt b a := rfl
  refine ⟨r1, r2, a.toList == b.toList, e1, by rw [egt, e2], e3, h1, ?_, h3, ?_, egt, ?_⟩
  · intro x rest hb'
    rw [h1, hb']
    exact lex_append_cons a.toList x rest
  · have hb1 : (!r2) = (r1 || (a.toList == b.toList)) := by
      cases r1 <;> cases r2 <;> cases hq : (a.toList == b.toList) <;>
        simp only [hq, Bool.not_true, Bool.not_false, Bool.or_true, Bool.or_false,
          Bool.true_or, Bool.false_or] <;> simp_all
    simp only [operator_le, e2, bind, Except.bind, pure, Except.pure, hb1]
  · have egt' : operator_gt b a = .ok r1 := e1
    have hb2 : (!r1) = (r2 || (a.toList == b.toList)) := by
      cases r1 <;> cases r2 <;> cases hq : (a.toList == b.toList) <;>
        simp only [hq, Bool.not_true, Bool.not_false, Bool.or_true, Bool.or_false,
          Bool.true_or, Bool.false_or] <;> simp_all
    simp only [operator_ge, egt', bind, Except.bind, pure, Except.pure, hb2]

/-- Witness for C15: `[1, 2, 3] < [1, 2, 4]` and `[1, 2] < [1, 2, 3]`. -/
theorem C15_ordering_witness :
    v123.Live ∧ v124.Live ∧ v12.Live ∧
    operator_lt v123 v124 = .ok true ∧ operator_lt v12 v123 = .ok true := by
  have h3 : v123.Live := by
    show v123.size_ ≤ v123.array_.raw_ptr_.length
    decide
  have h4 : v124.Live := by
    show v124.size_ ≤ v124.array_.raw_ptr_.length
    decide
  have h2 : v12.Live := Nat.le_refl 2
  obtain ⟨r, _, _, e, _, _, hlex, _⟩ := C15_ordering v123 v124 h3 h4
  obtain ⟨r', _, _, e', _, _, _, hpre, _⟩ := C15_ordering v12 v123 h2 h3
  have hr : r = true :=
    hlex.2 (List.Lex.cons (List.Lex.cons (List.Lex.rel (by decide))))
  have hr' : r' = true := hpre 3 [] rfl
  rw [hr] at e
  rw [hr'] at e'
  exact ⟨h3, h4, h2, e, e'⟩

/-- C16: the invariant `0 ≤ size ≤ capacity` holds for the vector built by each
constructor (default, capacity hint, size, size and value, literal list); every
public operation that starts from vectors satisfying it and returns normally ends
with vectors satisfying it (copy and move construction, both assignments, `Reserve`,
`Resize`, `Clear`, both `PushBack`, both `Insert`, `PopBack`, `Erase`, `swap`),
whatever their reference arguments are bound to; and on a well-formed vector each of
these operations, called within its precondition and with arguments that are not
slots of the vector, does return normally. -/
theorem C16_size_le_capacity [Elem α] :
    ((SimpleVector.empty : SimpleVector α).SizeInv ∧
      (∀ c, ∃ v : SimpleVector α, ofReserve (SimpleVec.Reserve c) = .ok v ∧ v.SizeInv) ∧
      (∀ n, ∃ v : SimpleVector α, ofSize n = .ok v ∧ v.SizeInv) ∧
      (∀ n (x : α), ∃ v, ofSizeValue n x = .ok v ∧ v.SizeInv) ∧
      (∀ l : List α, ∃ v, ofInitList l = .ok v ∧ v.SizeInv)) ∧
    (∀ v : SimpleVector α, v.SizeInv →
      (∀ r, ofCopy v = .ok r → r.1.SizeInv ∧ r.2.SizeInv) ∧
      ((ofMove v).1.SizeInv ∧ (ofMove v).2.SizeInv) ∧
      (∀ rhs s r, rhs.SizeInv → assign_copy v rhs s = .ok r → r.1.SizeInv ∧ r.2.SizeInv) ∧
      (∀ rhs s r, rhs.SizeInv → assign_move v rhs s = .ok r → r.1.SizeInv ∧ r.2.SizeInv) ∧
      (∀ c v', v.Reserve c = .ok v' → v'.SizeInv) ∧
      (∀ n v', v.Resize n = .ok v' → v'.SizeInv) ∧
      v.Clear.SizeInv ∧
      (∀ x v', v.PushBack_copy x = .ok v' → v'.SizeInv) ∧
      (∀ x v', v.PushBack x = .ok v' → v'.SizeInv) ∧
      (∀ pos x r, v.Insert_copy pos x = .ok r → r.1.SizeInv) ∧
      (∀ pos x r, v.Insert pos x = .ok r → r.1.SizeInv) ∧
      (∀ v', v.PopBack = .ok v' → v'.SizeInv) ∧
      (∀ pos r, v.Erase pos = .ok r → r.1.SizeInv) ∧
      (∀ other, other.SizeInv → (v.swap other).1.SizeInv ∧ (v.swap other).2.SizeInv)) ∧
    (∀ v : SimpleVector α, v.WF →
      (∃ r, ofCopy v = .ok r) ∧
      (∀ w s, ∃ r, assign_copy w v s = .ok r) ∧
      (∀ w s, ∃ r, assign_move w v s = .ok r) ∧
      (∀ c, ∃ v', v.Reserve c = .ok v') ∧
      (∀ n, ∃ v', v.Resize n = .ok v') ∧
      (∀ x, ∃ v', v.PushBack_copy (.object x) = .ok v') ∧
      (∀ x, ∃ v', v.PushBack x = .ok v') ∧
      (∀ pos x, pos ≤ v.GetSize → ∃ r, v.Insert_copy pos (.object x) = .ok r) ∧
      (∀ pos x, pos ≤ v.GetSize → ∃ r, v.Insert pos (.object x) = .ok r) ∧
      (v.GetSize ≠ 0 → ∃ v', v.PopBack = .ok v') ∧
      (∀ pos, pos < v.GetSize → ∃ r, v.Erase pos = .ok r)) := by
  refine ⟨⟨⟨Nat.le_refl 0, Nat.le_refl 0⟩, ?_, ?_, ?_, ?_⟩, ?_, ?_⟩
  · intro c
    obtain ⟨a, e, _⟩ := @ofReserve_spec α _ c
    exact ⟨_, e, Nat.zero_le _, Nat.zero_le _⟩
  · intro n
    obtain ⟨a, e, _⟩ := @ofSize_spec α _ n
    exact ⟨_, e, Nat.zero_le _, Nat.le_refl _⟩
  · intro n x
    obtain ⟨a, e, _⟩ := ofSizeValue_spec n x
    exact ⟨_, e, Nat.zero_le _, Nat.le_refl _⟩
  · intro l
    obtain ⟨a, e, _⟩ := ofInitList_spec l
    exact ⟨_, e, Nat.zero_le _, Nat.le_refl _⟩
  · intro v hv
    have hv' := (sizeInv_iff v).1 hv
    refine ⟨?_, ⟨hv, ⟨Nat.le_refl 0, Nat.le_refl 0⟩⟩, ?_, ?_, ?_, ?_,
      ⟨Nat.le_refl 0, Nat.zero_le _⟩, ?_, ?_, ?_, ?_, ?_, ?_, ?_⟩
    · intro r e
      have := ofCopy_inv v r hv' e
      exact ⟨(sizeInv_iff _).2 this.1, (sizeInv_iff _).2 this.2⟩
    · intro rhs s r hr e
      have := assign_copy_inv v rhs s r hv' ((sizeInv_iff _).1 hr) e
      exact ⟨(sizeInv_iff _).2 this.1, (sizeInv_iff _).2 this.2⟩
    · intro rhs s r hr e
      have := assign_move_inv v rhs s r hv' ((sizeInv_iff _).1 hr) e
      exact ⟨(sizeInv_iff _).2 this.1, (sizeInv_iff _).2 this.2⟩
    · intro c v' e
      have := Reserve_fields v v' c e
      exact (sizeInv_iff _).2 (by omega)
    · intro n v' e
      exact (sizeInv_iff _).2 (Resize_inv v v' n hv' e)
    · intro x v' e
      exact (sizeInv_iff _).2 (PushBack_copy_inv v v' x hv' e)
    · intro x v' e
      exact (sizeInv_iff _).2 (PushBack_inv v v' x hv' e)
    · intro pos x r e
      exact (sizeInv_iff _).2 (Insert_copy_inv v r pos x hv' e)
    · intro pos x r e
      exact (sizeInv_iff _).2 (Insert_inv v r pos x hv' e)
    · intro v' e
      exact (sizeInv_iff _).2 (PopBack_inv v v' hv' e)
    · intro pos r e
      exact (sizeInv_iff _).2 (Erase_inv v r pos hv' e)
    · intro other ho
      exact ⟨ho, hv⟩
  · intro v h
    have hlive := live_of_WF v h
    refine ⟨?_, ?_, ?_, ?_, ?_, ?_, ?_, ?_, ?_, ?_, ?_⟩
    · obtain ⟨a, e, _⟩ := ofCopy_spec v hlive
      exact ⟨_, e⟩
    · intro w s
      cases s with
      | true => exact ⟨(w, v), rfl⟩
      | false =>
        by_cases hz : v.size_ = 0
        · exact ⟨_, ((assign_body_ok w v hlive).1 hz).1⟩
        · obtain ⟨a, e, _⟩ := (assign_body_ok w v hlive).2 hz
          exact ⟨_, e⟩
    · intro w s
      cases s with
      | true => exact ⟨(w, v), rfl⟩
      | false =>
        by_cases hz : v.size_ = 0
        · exact ⟨_, ((assign_body_ok w v hlive).1 hz).2⟩
        · obtain ⟨a, _, e, _⟩ := (assign_body_ok w v hlive).2 hz
          exact ⟨_, e⟩
    · intro c
      obtain ⟨v', e, _⟩ := Reserve_spec v c h
      exact ⟨v', e⟩
    · intro n
      exact Resize_ok v n h
    · intro x
      exact PushBack_copy_ok v x h
    · intro x
      obtain ⟨v', e, _⟩ := PushBack_spec v x h
      exact ⟨v', e⟩
    · intro pos x hp
      obtain ⟨v', e, _⟩ := Insert_copy_spec v pos x h hp
      exact ⟨_, e⟩
    · intro pos x hp
      obtain ⟨v', e, _⟩ := Insert_spec v pos x h hp
      exact ⟨_, e⟩
    · intro hne
      exact ⟨_, PopBack_ok v hne⟩
    · intro pos hp
      obtain ⟨v', e, _⟩ := Erase_spec v pos h hp
      exact ⟨_, e⟩

/-- Witness for C16 on `[1, 2, 3]` (capacity 4): the vector is well formed and
satisfies the invariant, `PushBack(4)` and `PopBack()` return normally, and their
results satisfy the invariant. -/
theorem C16_size_le_capacity_witness :
    v123.WF ∧ v123.SizeInv ∧ (∃ v', v123.PushBack 4 = .ok v' ∧ v'.SizeInv) ∧
    (∃ v', v123.PopBack = .ok v' ∧ v'.SizeInv) := by
  have hwf : v123.WF := ⟨by decide, rfl⟩
  have hinv : v123.SizeInv := ⟨by decide, by decide⟩
  have h := @C16_size_le_capacity Nat _
  have hp := h.2.1 v123 hinv
  have ht := h.2.2 v123 hwf
  obtain ⟨v1, e1⟩ := ht.2.2.2.2.2.2.1 4
  obtain ⟨v2, e2⟩ := ht.2.2.2.2.2.2.2.2.2.1 (by decide)
  exact ⟨hwf, hinv, ⟨v1, e1, hp.2.2.2.2.2.2.2.2.1 4 v1 e1⟩,
    ⟨v2, e2, hp.2.2.2.2.2.2.2.2.2.2.2.1 v2 e2⟩⟩

/-- C17, evaluated on the code: `[1, 2, 3]` with capacity 4 is reached by three
`PushBack` calls and is well formed; its copy gets a block of 3 slots (as many as
the size of the source) while `GetCapacity()` of the copy is 4, so a following
`PushBack(4)` on the copy writes slot 3 outside its block; both assignments from
that source leave the destination in the same state. -/
theorem C17_copy_capacity_exceeds_block :
    pushAll (SimpleVector.empty : SimpleVector Nat) [1, 2, 3] = .ok v123 ∧ v123.WF ∧
    ofCopy v123 = .ok (⟨⟨[1, 2, 3]⟩, 3, 4⟩, v123) ∧
    GetCapacity (⟨⟨[1, 2, 3]⟩, 3, 4⟩ : SimpleVector Nat) = 4 ∧
    (⟨⟨[1, 2, 3]⟩, 3, 4⟩ : SimpleVector Nat).array_.raw_ptr_.length = 3 ∧
    PushBack (⟨⟨[1, 2, 3]⟩, 3, 4⟩ : SimpleVector Nat) 4 = .error .outOfBounds ∧
    assign_copy (SimpleVector.empty : SimpleVector Nat) v123 false =
      .ok (⟨⟨[1, 2, 3]⟩, 3, 4⟩, v123) ∧
    assign_move (SimpleVector.empty : SimpleVector Nat) v123 false =
      .ok (⟨⟨[1, 2, 3]⟩, 3, 4⟩, v123) :=
  ⟨rfl, ⟨by decide, rfl⟩, rfl, rfl, rfl, rfl, rfl, rfl⟩

/-- C18: on a well-formed vector, `Clear()`, `PopBack()` on a non-empty vector,
`Erase` at a position below the size and `Resize(n)` with `n ≤ size` return normally
and leave `GetCapacity()` unchanged; `Clear()` sets the size to 0; `PopBack()` lowers
the size by exactly one and leaves the elements at the remaining indices as they
were. -/
theorem C18_removal_keeps_capacity [Elem α] (v : SimpleVector α) (h : v.WF) :
    (v.Clear.GetCapacity = v.GetCapacity ∧ v.Clear.GetSize = 0) ∧
    (v.GetSize ≠ 0 → ∃ v', v.PopBack = .ok v' ∧ v'.GetCapacity = v.GetCapacity ∧
      v'.GetSize + 1 = v.GetSize ∧
      ∀ i, i < v'.GetSize → ∃ x, v.At i = .ok x ∧ v'.At i = .ok x) ∧
    (∀ pos, pos < v.GetSize → ∃ v' c, v.Erase pos = .ok (v', c) ∧
      v'.GetCapacity = v.GetCapacity) ∧
    (∀ n, n ≤ v.GetSize → ∃ v', v.Resize n = .ok v' ∧ v'.GetCapacity = v.GetCapacity) := by
  refine ⟨⟨rfl, rfl⟩, ?_, ?_, ?_⟩
  · intro hne
    have hne' : v.size_ ≠ 0 := hne
    refine ⟨⟨v.array_, v.size_ - 1, v.capacity_⟩, PopBack_ok v hne, rfl, ?_, ?_⟩
    · show v.size_ - 1 + 1 = v.size_
      omega
    · intro i hi
      have hi' : i < v.size_ - 1 := hi
      obtain ⟨x, hx⟩ := slot_of_lt v i h (by omega)
      exact ⟨x, At_of_slot v i x (by omega) hx, At_of_slot _ i x hi' hx⟩
  · intro pos hp
    obtain ⟨v', e, _, _, hc, _⟩ := Erase_spec v pos h hp
    exact ⟨v', pos, e, hc⟩
  · intro n hn
    have hn' : n ≤ v.size_ := hn
    by_cases h1 : n = v.size_
    · exact ⟨v, by simp [Resize, h1, pure, Except.pure], rfl⟩
    · obtain ⟨a, e, _⟩ := Resize_shrink_spec v n h (by omega)
      exact ⟨_, e, rfl⟩

/-- Witness for C18 on `[1, 2, 3]` (capacity 4): `PopBack()`, `Erase` at index 0 and
`Resize(1)` keep capacity 4; `PopBack()` gives size 2 with element 0 unchanged. -/
theorem C18_removal_keeps_capacity_witness :
    v123.WF ∧ v123.Clear.GetCapacity = 4 ∧ v123.Clear.GetSize = 0 ∧
    (∃ v', v123.PopBack = .ok v' ∧ v'.GetCapacity = 4 ∧ v'.GetSize + 1 = 3 ∧
      ∃ x, v123.At 0 = .ok x ∧ v'.At 0 = .ok x) ∧
    (∃ v' c, v123.Erase 0 = .ok (v', c) ∧ v'.GetCapacity = 4) ∧
    (∃ v', v123.Resize 1 = .ok v' ∧ v'.GetCapacity = 4) := by
  have hwf : v123.WF := ⟨by decide, rfl⟩
  obtain ⟨⟨hc, hs⟩, hpop, her, hre⟩ := C18_removal_keeps_capacity v123 hwf
  obtain ⟨v1, e1, c1, s1, a1⟩ := hpop (by decide)
  have hpos : 0 < v1.GetSize := by
    have : v1.GetSize + 1 = 3 := s1
    omega
  exact ⟨hwf, hc, hs, ⟨v1, e1, c1, s1, a1 0 hpos⟩, her 0 (by decide), hre 1 (by decide)⟩

/-- C19: for every requested capacity `c`, the constructor from the capacity hint
`Reserve(c)` returns a vector with `GetSize() = 0`, `IsEmpty()` true and
`GetCapacity() = c`; for every count `n` and value `x`, the constructor from
`(n, x)` returns a vector with size `n`, capacity `n` and every element at an index
below `n` equal to `x`; both vectors are well formed. -/
theorem C19_constructors [Elem α] (c n : Nat) (x : α) :
    (∃ v : SimpleVector α, ofReserve (SimpleVec.Reserve c) = .ok v ∧ v.GetSize = 0 ∧
      v.IsEmpty = true ∧ v.GetCapacity = c ∧ v.WF) ∧
    (∃ v : SimpleVector α, ofSizeValue n x = .ok v ∧ v.GetSize = n ∧ v.GetCapacity = n ∧
      (∀ i, i < n → v.At i = .ok x) ∧ v.WF) := by
  constructor
  · obtain ⟨a, e, hl⟩ := @ofReserve_spec α _ c
    exact ⟨⟨a, 0, c⟩, e, rfl, rfl, rfl, Nat.zero_le _, hl⟩
  · obtain ⟨a, e, hl, hj⟩ := ofSizeValue_spec n x
    exact ⟨⟨a, n, n⟩, e, rfl, rfl, fun i hi => At_of_slot _ i x hi (hj i hi),
      Nat.le_refl _, hl⟩

/-- Witness for C19: the capacity hint 5 gives size 0 and capacity 5; count 3 with
value 7 gives size 3, capacity 3 and element 2 equal to 7. -/
theorem C19_constructors_witness :
    (∃ v : SimpleVector Nat, ofReserve (SimpleVec.Reserve 5) = .ok v ∧ v.GetSize = 0 ∧
      v.IsEmpty = true ∧ v.GetCapacity = 5) ∧
    (∃ v : SimpleVector Nat, ofSizeValue 3 7 = .ok v ∧ v.GetSize = 3 ∧ v.GetCapacity = 3 ∧
      v.At 2 = .ok 7) := by
  obtain ⟨⟨v, e, hs, he, hc, _⟩, ⟨w, e', hs', hc', hat, _⟩⟩ := @C19_constructors Nat _ 5 3 7
  exact ⟨⟨v, e, hs, he, hc⟩, ⟨w, e', hs', hc', hat 2 (by decide)⟩⟩

/-- C20, evaluated on the code: `[1, 2, 3]` with capacity 4 is well formed and index
4 passes the assertion `index <= capacity_` of the unchecked `operator[]`, yet slot
4 lies outside the block of 4 slots, so the access is out of bounds; the same holds
for the index `capacity_` of every well-formed vector. -/
theorem C20_index_assertion_admits_capacity :
    v123.WF ∧ 4 ≤ v123.GetCapacity ∧ ¬ 4 < v123.array_.raw_ptr_.length ∧
    v123.index 4 = .error .outOfBounds ∧
    (∀ v : SimpleVector Nat, v.WF → v.index v.GetCapacity = .error .outOfBounds) := by
  refine ⟨⟨by decide, rfl⟩, by decide, by decide, rfl, ?_⟩
  intro v h
  have hnone : v.array_.raw_ptr_[v.capacity_]? = none := by
    rw [List.getElem?_eq_none_iff, h.2]
  simp [index, GetCapacity, ArrayPtr.get, hnone]

end Claims

end SimpleVec
